import Mathlib

/-!
# Verification of the mind-map plugin (parser and layout engines)

Shallow embedding of `src/tools/mind_map_center.py` and
`src/tools/mind_map_horizontal.py` (the two files share an identical
Markdown parser `_parse_markdown_to_tree` and text cleaner
`_clean_markdown_text`; they differ in the layout function).

Modelling conventions:
* Python strings are `List Char`; `\s` / `str.strip` whitespace is modelled
  by the ASCII whitespace set (space, tab, newline, carriage return,
  vertical tab, form feed).
* Python floats are idealized as exact elements of a linear ordered field
  (`ℚ` for the horizontal engine, which uses no trigonometry; a field
  equipped with abstract `cos`, `sin`, `pi` for the radial engine, so that
  instantiating at `ℝ` with `Real.cos`/`Real.sin`/`Real.pi` gives the real
  engine).
* The side-effecting drawing calls (`draw_text_label`,
  `draw_curved_branch_line`, matplotlib) do not influence any computed
  position, color or return value; the layout functions are modelled as
  producing a positioned tree (one positioned node per `draw_text_label`
  call, in the recursion structure of the source).  Two specification-only
  ghost fields are recorded on positioned nodes: the angle parameter a
  radial node was placed at, and the Y value a horizontal recursive call
  returned; neither influences the computation.
-/

namespace MindMap

/-- ASCII approximation of Python's whitespace set (`str.strip`, regex `\s`). -/
def isPySpace (c : Char) : Bool :=
  c = ' ' || c = '\t' || c = '\n' || c = '\x0d' || c = '\x0b' || c = '\x0c'

/-- Python `str.lstrip()`. -/
def pyLstrip (l : List Char) : List Char := l.dropWhile isPySpace

/-- Python `str.rstrip()`. -/
def pyRstrip (l : List Char) : List Char := (l.reverse.dropWhile isPySpace).reverse

/-- Python `str.strip()`. -/
def pyStrip (l : List Char) : List Char := pyLstrip (pyRstrip l)

/-- Python `str.split('\n')` (keeps empty pieces). -/
def splitLines : List Char → List (List Char)
  | [] => [[]]
  | '\n' :: rest => [] :: splitLines rest
  | c :: rest =>
    match splitLines rest with
    | [] => [[c]]
    | s :: ss => (c :: s) :: ss

/-- Number of leading `'#'` characters (`header_count` in the source). -/
def countHashes : List Char → Nat
  | '#' :: rest => countHashes rest + 1
  | _ => 0

/-- `len(line) - len(line.lstrip())` - the number of leading whitespace chars. -/
def leadingSpaces (l : List Char) : Nat := l.length - (pyLstrip l).length

/-- Does the regex `^\s*\d+\.\s+` match (anchored)?  `\s` and `\d` are
disjoint and the pattern is a chain of greedy runs, so matching is
deterministic: skip whitespace, demand one or more digits, a dot, then at
least one whitespace character. -/
def matchNumbered (l : List Char) : Bool :=
  let r1 := l.dropWhile isPySpace
  decide (r1.takeWhile Char.isDigit ≠ []) &&
    match r1.dropWhile Char.isDigit with
    | '.' :: c :: _ => isPySpace c
    | _ => false

/-- Does the regex `^\s*[-\*\+]\s+` match (anchored)? -/
def matchBullet (l : List Char) : Bool :=
  match l.dropWhile isPySpace with
  | b :: c :: _ => (b = '-' || b = '*' || b = '+') && isPySpace c
  | _ => false

/-- `re.sub(r'^\s*\d+\.\s*', '', line)`: remove the numbered-list marker if
the anchored pattern matches, else leave the line unchanged. -/
def stripNumberedMarker (l : List Char) : List Char :=
  let r1 := l.dropWhile isPySpace
  if r1.takeWhile Char.isDigit = [] then l
  else
    match r1.dropWhile Char.isDigit with
    | '.' :: rest => rest.dropWhile isPySpace
    | _ => l

/-- `re.sub(r'^\s*[-\*\+]\s*', '', line)`. -/
def stripBulletMarker (l : List Char) : List Char :=
  match l.dropWhile isPySpace with
  | b :: rest => if b = '-' || b = '*' || b = '+' then rest.dropWhile isPySpace else l
  | [] => l

/-- Split `l` as `group ++ '*' :: '*' :: rest` with the shortest possible
`group` (the lazy `(.*?)` of `\*\*(.*?)\*\*`), if possible. -/
def findDoubleStarClose : List Char → Option (List Char × List Char)
  | '*' :: '*' :: r => some ([], r)
  | c :: r => (findDoubleStarClose r).map (fun p => (c :: p.1, p.2))
  | [] => none

/-- Fuelled scanner for `re.sub(r'\*\*(.*?)\*\*', r'\1', text)`: at each
position, if a `**...**` group starts here replace it by its body and
continue after the match, else emit the character and advance.  Every step
consumes at least one input character, so fuel `= l.length` (as used in
`subDoubleStar`) never runs out. -/
def subDoubleStarF : Nat → List Char → List Char
  | 0, l => l
  | _ + 1, [] => []
  | fuel + 1, '*' :: '*' :: rest =>
    match findDoubleStarClose rest with
    | some (g, r) => g ++ subDoubleStarF fuel r
    | none => '*' :: subDoubleStarF fuel ('*' :: rest)
  | fuel + 1, c :: rest => c :: subDoubleStarF fuel rest

def subDoubleStar (l : List Char) : List Char := subDoubleStarF l.length l

/-- Split `l` as `group ++ '*' :: rest` with shortest `group` (lazy group of
`\*(.*?)\*`). -/
def findStarClose : List Char → Option (List Char × List Char)
  | '*' :: r => some ([], r)
  | c :: r => (findStarClose r).map (fun p => (c :: p.1, p.2))
  | [] => none

/-- Fuelled scanner for `re.sub(r'\*(.*?)\*', r'\1', text)`. -/
def subStarF : Nat → List Char → List Char
  | 0, l => l
  | _ + 1, [] => []
  | fuel + 1, '*' :: rest =>
    match findStarClose rest with
    | some (g, r) => g ++ subStarF fuel r
    | none => '*' :: subStarF fuel rest
  | fuel + 1, c :: rest => c :: subStarF fuel rest

def subStar (l : List Char) : List Char := subStarF l.length l

/-- Split `l` as `group ++ '*' :: '*' :: ':' :: ws ++ rest` with shortest
`group` and greedy trailing `\s*` (the pattern `\*\*(.*?)\*\*:\s*`). -/
def findBoldColonClose : List Char → Option (List Char × List Char)
  | '*' :: '*' :: ':' :: r => some ([], r.dropWhile isPySpace)
  | c :: r => (findBoldColonClose r).map (fun p => (c :: p.1, p.2))
  | [] => none

/-- Fuelled scanner for `re.sub(r'\*\*(.*?)\*\*:\s*', r'\1: ', text)`. -/
def subBoldColonF : Nat → List Char → List Char
  | 0, l => l
  | _ + 1, [] => []
  | fuel + 1, '*' :: '*' :: rest =>
    match findBoldColonClose rest with
    | some (g, r) => g ++ ':' :: ' ' :: subBoldColonF fuel r
    | none => '*' :: subBoldColonF fuel ('*' :: rest)
  | fuel + 1, c :: rest => c :: subBoldColonF fuel rest

def subBoldColon (l : List Char) : List Char := subBoldColonF l.length l

/-- `_clean_markdown_text`: the four substitutions, then `strip()`. -/
def clean_markdown_text (l : List Char) : List Char :=
  let t1 := subDoubleStar l
  let t2 := subStar t1
  let t3 := t2.filter (fun c => !(c = '《' || c = '》'))
  let t4 := subBoldColon t3
  pyStrip t4

/-- The node dictionaries `{'content': ..., 'level': ..., 'children': [...]}`
built by `_parse_markdown_to_tree`. -/
inductive PNode where
  | mk (content : List Char) (level : Nat) (children : List PNode)

def PNode.content : PNode → List Char
  | .mk c _ _ => c

def PNode.level : PNode → Nat
  | .mk _ l _ => l

def PNode.children : PNode → List PNode
  | .mk _ _ cs => cs

/-! ## Decidable equality of parse trees -/

mutual
def pnodeDecEq : (a b : PNode) → Decidable (a = b)
  | .mk c1 l1 cs1, .mk c2 l2 cs2 =>
    if h1 : c1 = c2 then
      if h2 : l1 = l2 then
        match pnodeListDecEq cs1 cs2 with
        | isTrue h3 => isTrue (by rw [h1, h2, h3])
        | isFalse h3 => isFalse (fun h => PNode.noConfusion h (fun _ _ hc => h3 hc))
      else isFalse (fun h => PNode.noConfusion h (fun _ hl _ => h2 hl))
    else isFalse (fun h => PNode.noConfusion h (fun hc _ _ => h1 hc))
def pnodeListDecEq : (as bs : List PNode) → Decidable (as = bs)
  | [], [] => isTrue rfl
  | a :: as, b :: bs =>
    match pnodeDecEq a b, pnodeListDecEq as bs with
    | isTrue h1, isTrue h2 => isTrue (by rw [h1, h2])
    | isFalse h1, _ => isFalse (fun h => List.noConfusion h (fun hh _ => h1 hh))
    | isTrue _, isFalse h2 => isFalse (fun h => List.noConfusion h (fun _ ht => h2 ht))
  | [], _ :: _ => isFalse (fun h => List.noConfusion h)
  | _ :: _, [] => isFalse (fun h => List.noConfusion h)
end

instance : DecidableEq PNode := pnodeDecEq

/-- An entry of `node_stack`: a node whose `children` list is still being
filled.  In the Python source a child is appended to its parent's mutable
`children` list as soon as it is created; here the completed subtree is
appended when the child is popped off the stack, which yields the same tree
in the same order. -/
structure SEntry where
  content : List Char
  level : Nat
  childAcc : List PNode

def closeEntry (e : SEntry) : PNode := .mk e.content e.level e.childAcc

def absorb (e : SEntry) : Option PNode → SEntry
  | none => e
  | some p => { e with childAcc := e.childAcc ++ [p] }

/-- `while node_stack and node_stack[-1]['level'] >= level: node_stack.pop()`.
The stack has its top at the head.  `pend` carries the most recently
completed subtree downward: it is appended to the children of the next
surviving entry, or to the top-level `nodes` list if the stack empties. -/
def popGE (lvl : Nat) : List SEntry → List PNode → Option PNode → List SEntry × List PNode
  | [], ns, none => ([], ns)
  | [], ns, some p => ([], ns ++ [p])
  | e :: rest, ns, pend =>
    let e' := absorb e pend
    if lvl ≤ e'.level then popGE lvl rest ns (some (closeEntry e'))
    else (e' :: rest, ns)

/-- Parser state: completed top-level nodes, the open-node stack, and
`last_header_level`. -/
structure PState where
  nodes : List PNode
  stack : List SEntry
  lastHeader : Nat

/-- Create a node and add it to the tree (lines 208-230 of the source):
adjust the stack, attach, push. -/
def pushNode (st : PState) (content : List Char) (lvl : Nat) : PState :=
  let p := popGE lvl st.stack st.nodes none
  { st with nodes := p.2, stack := ⟨content, lvl, []⟩ :: p.1 }

/-- One iteration of the `for line in lines` loop of
`_parse_markdown_to_tree`.  Note the control flow of the source: an ignored
line (`else: continue`) and a line whose content is empty after cleaning
(`if not content: continue`) leave the whole state - including
`last_header_level` - unchanged; a header line updates `last_header_level`
before the empty-content check; the `last_header_level = 0` reset on line
216 is reached only by node-producing numbered-list lines. -/
def processLine (st : PState) (raw : List Char) : PState :=
  let line := pyRstrip raw
  if line = [] || "```".toList.isPrefixOf line then st
  else if "#".toList.isPrefixOf line then
    let cnt := countHashes line
    let content := pyStrip (line.drop cnt)
    let st1 := { st with lastHeader := cnt }
    if content = [] then st1 else pushNode st1 content cnt
  else if matchNumbered line then
    let lvl := leadingSpaces line / 2 + 2
    let content := clean_markdown_text (stripNumberedMarker line)
    if content = [] then st
    else pushNode { st with lastHeader := 0 } content lvl
  else if matchBullet line then
    let ls := leadingSpaces line
    let lvl := if ls = 0 && 0 < st.lastHeader then st.lastHeader + 1 else ls / 2 + 2
    let content := clean_markdown_text (stripBulletMarker line)
    if content = [] then st else pushNode st content lvl
  else st

def initState : PState := ⟨[], [], 0⟩

def runLines (lines : List (List Char)) : PState := lines.foldl processLine initState

/-- The completed top-level forest after processing all lines (the final
`nodes` list; entries still on the stack were already attached to their
parents in the source, which the final flush reproduces here). -/
def finalForest (st : PState) : List PNode := (popGE 0 st.stack st.nodes none).2

def topLevelForest (s : List Char) : List PNode :=
  finalForest (runLines (splitLines (pyStrip s)))

/-- `_parse_markdown_to_tree` (lines 144-244 of either tool file). -/
def parse_markdown_to_tree (s : List Char) : PNode :=
  match topLevelForest s with
  | [] => .mk "Mind Map".toList 1 []
  | [n] => n
  | n1 :: n2 :: rest => .mk "Mind Map".toList 1 (n1 :: n2 :: rest)

/-! ## Tree statistics -/

mutual
/-- `_calculate_tree_depth`. -/
def calculate_tree_depth : PNode → Nat
  | .mk _ _ cs =>
    match cs with
    | [] => 1
    | c :: rest => 1 + maxDepthList (c :: rest)
def maxDepthList : List PNode → Nat
  | [] => 0
  | c :: rest => Nat.max (calculate_tree_depth c) (maxDepthList rest)
end

mutual
/-- `_get_all_nodes`. -/
def get_all_nodes : PNode → List PNode
  | .mk c l cs => .mk c l cs :: allNodesList cs
def allNodesList : List PNode → List PNode
  | [] => []
  | c :: rest => get_all_nodes c ++ allNodesList rest
end

mutual
/-- `_count_total_nodes` (horizontal tool). -/
def count_total_nodes : PNode → Nat
  | .mk _ _ cs => 1 + countNodesList cs
def countNodesList : List PNode → Nat
  | [] => 0
  | c :: rest => count_total_nodes c + countNodesList rest
end

/-- `max([len(node.get('children', [])) for node in [tree_data] +
self._get_all_nodes(tree_data)] + [1])`. -/
def maxChildren (t : PNode) : Nat :=
  ((t :: get_all_nodes t).map (fun n => n.children.length)).foldl Nat.max 1

/-- `axis_limit = min(max_axis_limit, max(8, tree_depth * 2, max_children))`
of the radial engine. -/
def centerAxisLimit (t : PNode) : Nat :=
  Nat.min 10 (Nat.max 8 (Nat.max (calculate_tree_depth t * 2) (maxChildren t)))

/-- `x_limit = min(max_x_limit, max(10, tree_depth * 3))` of the horizontal
engine. -/
def horizontalXLimit (t : PNode) : Nat :=
  Nat.min 12 (Nat.max 10 (calculate_tree_depth t * 3))

/-- `y_limit = min(max_y_limit, max(6, total_nodes // 4))` of the horizontal
engine. -/
def horizontalYLimit (t : PNode) : Nat :=
  Nat.min 8 (Nat.max 6 (count_total_nodes t / 4))

/-! ## Colors -/

/-- The `branch_colors` palette (identical in both tools). -/
def branch_colors : List String :=
  ["#FF6B6B", "#4ECDC4", "#45B7D1", "#96CEB4", "#FECA57", "#FF9FF3",
   "#54A0FF", "#5F27CD", "#00D2D3", "#FF9F43", "#EE5A24", "#0984E3"]

/-- The fixed neutral color of the root node (`'#333333'`). -/
def rootColor : String := "#333333"

/-- `branch_colors[i % len(branch_colors)]`. -/
def branchColorAt (i : Nat) : String :=
  branch_colors.getD (i % branch_colors.length) rootColor

/-! ## Radial ("center") layout engine -/

/-- The trigonometric collaborators `math.cos`, `math.sin`, `math.pi`,
abstracted so the engine can be stated over any linear ordered field;
instantiating at `ℝ` with `Real.cos`, `Real.sin`, `Real.pi` gives the
idealized (exact-arithmetic) source engine. -/
structure Geom (R : Type) where
  cos : R → R
  sin : R → R
  pi : R

/-- The real geometry. -/
noncomputable def realGeom : Geom ℝ := ⟨Real.cos, Real.sin, Real.pi⟩

/-- A positioned node of the radial layout: one per `draw_text_label` call,
in the recursion structure of `layout_dynamic_center_mindmap`.  `angle` is a
specification-only record of the `parent_angle` parameter the node was laid
out with (for the root, the default `0`); it does not influence the
computation. -/
inductive PTreeC (R : Type) where
  | mk (content : List Char) (x y : R) (depth : Nat) (angle : R) (color : String)
       (children : List (PTreeC R))

def PTreeC.content {R : Type} : PTreeC R → List Char
  | .mk c _ _ _ _ _ _ => c

def PTreeC.x {R : Type} : PTreeC R → R
  | .mk _ x _ _ _ _ _ => x

def PTreeC.y {R : Type} : PTreeC R → R
  | .mk _ _ y _ _ _ _ => y

def PTreeC.depth {R : Type} : PTreeC R → Nat
  | .mk _ _ _ d _ _ _ => d

def PTreeC.angle {R : Type} : PTreeC R → R
  | .mk _ _ _ _ a _ _ => a

def PTreeC.color {R : Type} : PTreeC R → String
  | .mk _ _ _ _ _ col _ => col

def PTreeC.children {R : Type} : PTreeC R → List (PTreeC R)
  | .mk _ _ _ _ _ _ cs => cs

mutual
/-- `layout_dynamic_center_mindmap(node, center_x, center_y, depth_level,
parent_angle, angle_range, inherited_color)` (lines 399-477 of
`mind_map_center.py`).  `L` is the closed-over `axis_limit`.  The returned
positioned tree records, per node, the point it is drawn at, its
`depth_level` and its color. -/
def layout_dynamic_center_mindmap {R : Type} [LinearOrderedField R] (g : Geom R) (L : R) :
    PNode → R → R → Nat → R → R → String → PTreeC R
  | .mk content _ cs, cx, cy, depth, pAngle, aRange, inherited =>
    let nodeColor := if depth = 1 then rootColor else inherited
    match cs with
    | [] => .mk content cx cy depth pAngle nodeColor []
    | c :: rest =>
      let n := (c :: rest).length
      let radius := min ((3 : R) + (depth : R) * (3/10) + (n : R) * (1/20)) (L * (3/10))
      let angles : List R :=
        if n = 1 then [if pAngle ≠ 0 then pAngle else 0]
        else if depth = 1 then
          (List.range n).map (fun (i : Nat) => (0 : R) + (i : R) * (2 * g.pi / (n : R)))
        else
          let startAngle := pAngle - aRange / 2
          let step := aRange / ((Nat.max (n - 1) 1 : Nat) : R)
          (List.range n).map (fun (i : Nat) => startAngle + (i : R) * step)
      .mk content cx cy depth pAngle nodeColor
        (centerChildren g L cx cy depth n radius aRange inherited (c :: rest) angles 0)
/-- The `for i, (child, angle) in enumerate(zip(children, angles))` loop of
the radial engine: each child is placed at `center + radius*(cos θ, sin θ)`
clamped into `[-L+1, L-1]`, gets a fresh palette color at depth 1 and the
inherited color deeper, and is laid out recursively with angle budget
`min(π/3, angle_range / max(n, 1))` (or `0` for a leaf child). -/
def centerChildren {R : Type} [LinearOrderedField R] (g : Geom R) (L : R)
    (cx cy : R) (depth : Nat) (n : Nat) (radius aRange : R) (inherited : String) :
    List PNode → List R → Nat → List (PTreeC R)
  | [], _, _ => []
  | _ :: _, [], _ => []
  | c :: cs, θ :: θs, i =>
    let branchColor := if depth = 1 then branchColorAt i else inherited
    let childX := max (-L + 1) (min (L - 1) (cx + radius * g.cos θ))
    let childY := max (-L + 1) (min (L - 1) (cy + radius * g.sin θ))
    let childRange : R :=
      if 0 < c.children.length then min (g.pi / 3) (aRange / ((Nat.max n 1 : Nat) : R)) else 0
    layout_dynamic_center_mindmap g L c childX childY (depth + 1) θ childRange branchColor
      :: centerChildren g L cx cy depth n radius aRange inherited cs θs (i + 1)
end

/-- The top-level call `layout_dynamic_center_mindmap(tree_data)` with the
source's default arguments (`center_x=0, center_y=0, depth_level=1,
parent_angle=0, angle_range=2π, inherited_color='#333333'`) and the
`axis_limit` the engine computed for the tree. -/
def layoutCenterTop {R : Type} [LinearOrderedField R] (g : Geom R) (t : PNode) : PTreeC R :=
  layout_dynamic_center_mindmap g ((centerAxisLimit t : Nat) : R) t 0 0 1 0 (2 * g.pi) rootColor

mutual
/-- All positioned nodes of a radial layout tree (the node itself and all
descendants). -/
def allNodesC {R : Type} : PTreeC R → List (PTreeC R)
  | .mk c x y d a col cs => .mk c x y d a col cs :: allNodesListC cs
def allNodesListC {R : Type} : List (PTreeC R) → List (PTreeC R)
  | [] => []
  | c :: rest => allNodesC c ++ allNodesListC rest
end

/-! ## Horizontal layout engine -/

/-- A positioned node of the horizontal layout.  `retY` is a
specification-only record of the Y value the recursive call for this node
returned to its caller (for a child drawn without recursion by the
truncation branch, the `child_y` used for min/max tracking); it does not
influence the computation. -/
inductive HTree where
  | mk (content : List Char) (x y : ℚ) (depth : Nat) (color : String) (retY : ℚ)
       (children : List HTree)

def HTree.content : HTree → List Char
  | .mk c _ _ _ _ _ _ => c

def HTree.x : HTree → ℚ
  | .mk _ x _ _ _ _ _ => x

def HTree.y : HTree → ℚ
  | .mk _ _ y _ _ _ _ => y

def HTree.depth : HTree → Nat
  | .mk _ _ _ d _ _ _ => d

def HTree.color : HTree → String
  | .mk _ _ _ _ col _ _ => col

def HTree.retY : HTree → ℚ
  | .mk _ _ _ _ _ r _ => r

def HTree.children : HTree → List HTree
  | .mk _ _ _ _ _ _ cs => cs

mutual
/-- `layout_dynamic_horizontal_mindmap(node, start_x, start_y, depth_level,
available_height, inherited_color)` (lines 396-494 of
`mind_map_horizontal.py`).  `xL`, `yL` are the closed-over `x_limit`,
`y_limit`.  Returns the positioned tree together with the Y value the call
returns (`start_y` for a leaf, else the midpoint of the tracked min/max
child Y, or `start_y` if no child was processed).  `vertical_spacing` is
defined in the source only in the several-children branch and read only
when `child_count > 1`; here it is computed unconditionally with the same
value.  The `float('inf')` min/max tracking is modelled with `Option ℚ`. -/
def layout_dynamic_horizontal_mindmap (xL yL : ℚ) :
    PNode → ℚ → ℚ → Nat → ℚ → String → HTree × ℚ
  | .mk content _ cs, startX, startY, depth, availH, inherited =>
    let nodeColor := if depth = 1 then rootColor else inherited
    match cs with
    | [] => (.mk content startX startY depth nodeColor startY [], startY)
    | c :: rest =>
      let n := (c :: rest).length
      let xSpacing := (3 : ℚ) + (depth : ℚ) * (1/2)
      let nx0 := startX + xSpacing
      let nextX := if nx0 > xL - 1 then xL - 1 else nx0
      let vs : ℚ := min (min (availH / ((Nat.max n 1 : Nat) : ℚ)) 4) 3
      let childYs : List ℚ :=
        if n = 1 then [startY]
        else
          let totalH := ((n : ℚ) - 1) * vs
          let startChildY := startY + totalH / 2
          ((List.range n).map (fun (i : Nat) => startChildY - (i : ℚ) * vs)).map
            (fun p => max (-yL + 1/2) (min (yL - 1/2) p))
      let res := horizontalChildren xL yL nextX depth n availH vs inherited (c :: rest) childYs 0
      (.mk content startX startY depth nodeColor
        (match res.2.1, res.2.2 with
         | some mn, some mx => (mn + mx) / 2
         | _, _ => startY) res.1,
       match res.2.1, res.2.2 with
       | some mn, some mx => (mn + mx) / 2
       | _, _ => startY)
/-- The `for i, (child, child_y) in enumerate(zip(children, child_positions))`
loop of the horizontal engine: returns the laid-out children together with
the tracked min and max of the Y values used (`none` when the loop body
never ran).  If `next_x < x_limit - 0.5` the child is laid out recursively
with `child_height = max(vertical_spacing*0.8, 1)` (several children) or
`available_height*0.6` (single child); otherwise only its label is drawn at
`(next_x, child_y)` and its own children are not laid out. -/
def horizontalChildren (xL yL : ℚ) (nextX : ℚ) (depth : Nat) (n : Nat)
    (availH vs : ℚ) (inherited : String) :
    List PNode → List ℚ → Nat → List HTree × Option ℚ × Option ℚ
  | [], _, _ => ([], none, none)
  | _ :: _, [], _ => ([], none, none)
  | c :: cs, y :: ys, i =>
    let branchColor := if depth = 1 then branchColorAt i else inherited
    let childHeight := if 1 < n then max (vs * (4/5)) 1 else availH * (3/5)
    let hd : HTree × ℚ :=
      if nextX < xL - 1/2 then
        layout_dynamic_horizontal_mindmap xL yL c nextX y (depth + 1) childHeight branchColor
      else
        (.mk c.content nextX y (depth + 1) branchColor y [], y)
    let tl := horizontalChildren xL yL nextX depth n availH vs inherited cs ys (i + 1)
    (hd.1 :: tl.1,
     some (match tl.2.1 with | some m => min hd.2 m | none => hd.2),
     some (match tl.2.2 with | some m => max hd.2 m | none => hd.2))
end

/-- The top-level call `layout_dynamic_horizontal_mindmap(tree_data)` with
the source's defaults (`start_x=-2, start_y=0, depth_level=1,
available_height=None` - which the body replaces by `y_limit * 2` -
`inherited_color='#333333'`) and the `x_limit`, `y_limit` the engine
computed for the tree. -/
def layoutHorizontalTop (t : PNode) : HTree × ℚ :=
  layout_dynamic_horizontal_mindmap ((horizontalXLimit t : Nat) : ℚ)
    ((horizontalYLimit t : Nat) : ℚ) t (-2) 0 1 (((horizontalYLimit t : Nat) : ℚ) * 2) rootColor

mutual
/-- All positioned nodes of a horizontal layout tree. -/
def allNodesH : HTree → List HTree
  | .mk c x y d col r cs => .mk c x y d col r cs :: allNodesListH cs
def allNodesListH : List HTree → List HTree
  | [] => []
  | c :: rest => allNodesH c ++ allNodesListH rest
end

/-! ## Tool entry guard (`_invoke`) -/

/-- Is every character whitespace (so Python's `str.strip` yields the empty
string)? -/
def whitespaceOnly (l : List Char) : Bool := l.all isPySpace

/-- Outcome of the input guard of `MindMapCenterTool._invoke` /
`MindMapHorizontalTool._invoke` (identical in both tools): the
`markdown_content` parameter is stripped; if the result is empty an error
text message is emitted and the method returns before any parsing, else the
stripped content is parsed and handed to the renderer. -/
inductive InvokeStart where
  | errorEmptyInput
  | parsed (tree : PNode)
deriving DecidableEq

def invokeStart (mc : List Char) : InvokeStart :=
  let m := pyStrip mc
  if m = [] then .errorEmptyInput else .parsed (parse_markdown_to_tree m)

/-! ## Claim predicates -/

mutual
/-- Does every child have a level strictly greater than its parent's,
throughout the tree? -/
def strictB : PNode → Bool
  | .mk _ l cs => strictChildren l cs
def strictChildren : Nat → List PNode → Bool
  | _, [] => true
  | l, c :: cs => (decide (l < c.level) && strictB c) && strictChildren l cs
end

mutual
/-- Claim C1 as stated: every node at `depthLevel ≥ 2` has its parent's
color (radial trees). -/
def colorClaim2C {R : Type} : PTreeC R → Bool
  | .mk _ _ _ _ _ col cs => colorClaim2KidsC col cs
def colorClaim2KidsC {R : Type} : String → List (PTreeC R) → Bool
  | _, [] => true
  | pcol, c :: cs =>
    ((!decide (2 ≤ c.depth)) || decide (c.color = pcol)) && colorClaim2C c
      && colorClaim2KidsC pcol cs
end

mutual
/-- Amended C1: every node at `depthLevel ≥ 3` (parent at depth ≥ 2) has
its parent's color, i.e. color is constant below the depth 1→2 edge
(radial trees). -/
def colorOK3C {R : Type} : PTreeC R → Bool
  | .mk _ _ _ _ _ col cs => colorOK3KidsC col cs
def colorOK3KidsC {R : Type} : String → List (PTreeC R) → Bool
  | _, [] => true
  | pcol, c :: cs =>
    ((!decide (3 ≤ c.depth)) || decide (c.color = pcol)) && colorOK3C c
      && colorOK3KidsC pcol cs
end

mutual
/-- Claim C1 as stated, for horizontal trees. -/
def colorClaim2H : HTree → Bool
  | .mk _ _ _ _ col _ cs => colorClaim2KidsH col cs
def colorClaim2KidsH : String → List HTree → Bool
  | _, [] => true
  | pcol, c :: cs =>
    ((!decide (2 ≤ c.depth)) || decide (c.color = pcol)) && colorClaim2H c
      && colorClaim2KidsH pcol cs
end

mutual
/-- Amended C1, for horizontal trees. -/
def colorOK3H : HTree → Bool
  | .mk _ _ _ _ col _ cs => colorOK3KidsH col cs
def colorOK3KidsH : String → List HTree → Bool
  | _, [] => true
  | pcol, c :: cs =>
    ((!decide (3 ≤ c.depth)) || decide (c.color = pcol)) && colorOK3H c
      && colorOK3KidsH pcol cs
end

mutual
/-- Is the positioned tree a full layout of the source tree: same label at
the node and, recursively, one laid-out child per source child?  (Claim C6
asserts this FAILS at the truncation boundary; the code never truncates.) -/
def laidOutWithB : HTree → PNode → Bool
  | .mk c _ _ _ _ _ hs, n => decide (c = n.content) && laidOutKidsB hs n.children
def laidOutKidsB : List HTree → List PNode → Bool
  | [], [] => true
  | h :: hs, m :: ms => laidOutWithB h m && laidOutKidsB hs ms
  | _, _ => false
end

mutual
/-- The y-coordinates of every node of a horizontal subtree. -/
def allYs : HTree → List ℚ
  | .mk _ _ y _ _ _ cs => y :: allYsKids cs
def allYsKids : List HTree → List ℚ
  | [] => []
  | c :: rest => allYs c ++ allYsKids rest
end

/-- The y-coordinates of the strict descendants of a node. -/
def descYs (t : HTree) : List ℚ := allYsKids t.children

/-- Minimum of a nonempty list given its head. -/
def listMinFrom (a : ℚ) (l : List ℚ) : ℚ := l.foldl min a

/-- Maximum of a nonempty list given its head. -/
def listMaxFrom (a : ℚ) (l : List ℚ) : ℚ := l.foldl max a

mutual
/-- Claim C8 as stated: for every node with children, the Y value its
recursive call returned (`retY`) is the midpoint of the minimum and maximum
Y actually used by its descendants; for a childless node it is the node's
own Y. -/
def midClaimB : HTree → Bool
  | .mk _ _ y _ _ r cs =>
    (match allYsKids cs with
     | [] => decide (r = y)
     | a :: ys => decide (r = (listMinFrom a ys + listMaxFrom a ys) / 2))
      && midClaimKidsB cs
def midClaimKidsB : List HTree → Bool
  | [] => true
  | c :: rest => midClaimB c && midClaimKidsB rest
end

mutual
/-- Amended C8: the reported Y is computed bottom-up from the immediate
children's reported Ys - a childless node reports its own Y, a node with
laid-out children reports the midpoint of the minimum and maximum of the
values its children reported (not of all Ys its descendants use). -/
def retOKB : HTree → Bool
  | .mk _ _ y _ _ r cs =>
    (match cs with
     | [] => decide (r = y)
     | c :: rest =>
       decide (r = (listMinFrom c.retY (rest.map HTree.retY)
                     + listMaxFrom c.retY (rest.map HTree.retY)) / 2))
      && retOKKidsB cs
def retOKKidsB : List HTree → Bool
  | [] => true
  | c :: rest => retOKB c && retOKKidsB rest
end



/-! ## Invariants and concrete inputs used by the verification -/

/-- A well-formed completed node: strictly increasing levels inside, level
at least 1. -/
def nodeOK (t : PNode) : Prop := strictB t = true ∧ 1 ≤ t.level

/-- A well-formed open stack entry: every already-attached child subtree is
strict and sits strictly below it in level. -/
def entryOK (e : SEntry) : Prop :=
  (∀ c ∈ e.childAcc, strictB c = true ∧ e.level < c.level) ∧ 1 ≤ e.level

/-- The stack (top first) has well-formed entries with strictly decreasing
levels from top to bottom. -/
def stackOK : List SEntry → Prop
  | [] => True
  | e :: rest => entryOK e ∧ (∀ e', rest.head? = some e' → e'.level < e.level) ∧ stackOK rest

/-- Parser-state invariant. -/
def stateOK (st : PState) : Prop := (∀ t ∈ st.nodes, nodeOK t) ∧ stackOK st.stack

/-- A geometry instance over `ℚ` (used to instantiate universally
quantified radial statements at concrete inputs). -/
def qGeom : Geom ℚ := ⟨fun _ => 0, fun _ => 0, 0⟩

/-- Default element for `List.getD` on radial layout trees. -/
def dfltC {R : Type} [LinearOrderedField R] : PTreeC R := .mk [] 0 0 0 0 "" []

/-- The tree of the markdown document `# A\n- B\n  - C\n    - D\n      - E\n        - F`:
a six-level chain, deep enough that the horizontal engine's `next_x` hits
the `x_limit - 1` clamp. -/
def chain6 : PNode :=
  parse_markdown_to_tree "# A\n- B\n  - C\n    - D\n      - E\n        - F".toList

/-- A tree whose horizontal layout separates the claim-C8 reading
(midpoint of all descendant Ys) from the code (midpoint of the children's
reported Ys): `R → A → { B → {B1, B2}, C }`. -/
def tree8 : PNode :=
  .mk "R".toList 1
    [.mk "A".toList 2
      [.mk "B".toList 3 [.mk "B1".toList 4 [], .mk "B2".toList 4 []],
       .mk "C".toList 3 []]]

/-!
# Theorems
-/

/-! ## General helper lemmas -/

theorem pyStrip_eq_nil_iff (l : List Char) : pyStrip l = [] ↔ whitespaceOnly l = true := by
  unfold pyStrip pyLstrip pyRstrip whitespaceOnly
  rw [List.dropWhile_eq_nil_iff, List.all_eq_true]
  constructor
  · intro h c hc
    have hrev : c ∈ l.reverse := List.mem_reverse.mpr hc
    rw [← List.takeWhile_append_dropWhile (p := isPySpace) (l := l.reverse)] at hrev
    rcases List.mem_append.mp hrev with h1 | h1
    · exact List.mem_takeWhile_imp h1
    · exact h c (List.mem_reverse.mpr h1)
  · intro h c hc
    exact h c (List.mem_reverse.mp ((List.dropWhile_sublist _).mem (List.mem_reverse.mp hc)))

theorem processLine_skip (st : PState) (raw : List Char)
    (h : pyRstrip raw = [] ∨ "```".toList.isPrefixOf (pyRstrip raw) = true) :
    processLine st raw = st := by
  unfold processLine
  rcases h with h | h
  · simp [h]
  · simp only [h, Bool.or_true]
    rfl

/-!
## C3 - the parser always returns exactly one root
-/

/-- C3: `_parse_markdown_to_tree` returns exactly one root for every input:
a `'Mind Map'`/level-1/childless placeholder when no top-level nodes parse,
the unique top-level node when exactly one parses, and a synthetic
`'Mind Map'`/level-1 root wrapping the top-level nodes in document order
when several parse.  (It is a total Lean function, modelling that the
Python code raises no exception.) -/
theorem parser_single_root (s : List Char) :
    (topLevelForest s = [] →
      parse_markdown_to_tree s = .mk "Mind Map".toList 1 []) ∧
    (∀ n, topLevelForest s = [n] → parse_markdown_to_tree s = n) ∧
    (∀ n1 n2 rest, topLevelForest s = n1 :: n2 :: rest →
      parse_markdown_to_tree s = .mk "Mind Map".toList 1 (n1 :: n2 :: rest)) := by
  refine ⟨fun h => ?_, fun n h => ?_, fun n1 n2 rest h => ?_⟩ <;>
    simp [parse_markdown_to_tree, h]

/-- Witness for C3 at concrete inputs exercising all three cases. -/
theorem parser_single_root_witness :
    parse_markdown_to_tree "no structure".toList = .mk "Mind Map".toList 1 [] ∧
    parse_markdown_to_tree "# A".toList = .mk "A".toList 1 [] ∧
    parse_markdown_to_tree "# A\n# B".toList
      = .mk "Mind Map".toList 1 [.mk "A".toList 1 [], .mk "B".toList 1 []] :=
  ⟨(parser_single_root _).1 (by decide),
   (parser_single_root _).2.1 _ (by decide),
   (parser_single_root _).2.2 _ _ _ (by decide)⟩

/-!
## C9 - empty or whitespace-only input is rejected before parsing
-/

/-- C9: at the tool interface (identical guard in both `_invoke` methods),
an empty or whitespace-only `markdown_content` yields the error text path
and the method returns without parsing (so without producing an image);
conversely any parsed tree - in particular the placeholder single-node
tree - arises only from input that is not whitespace-only. -/
theorem invoke_empty_guard (mc : List Char) :
    (invokeStart mc = .errorEmptyInput ↔ whitespaceOnly mc = true) ∧
    (∀ t, invokeStart mc = .parsed t → whitespaceOnly mc = false) := by
  have hmain : invokeStart mc = .errorEmptyInput ↔ whitespaceOnly mc = true := by
    unfold invokeStart
    by_cases h : pyStrip mc = []
    · simp [h, (pyStrip_eq_nil_iff mc).mp h]
    · have : whitespaceOnly mc ≠ true := fun hw => h ((pyStrip_eq_nil_iff mc).mpr hw)
      simp [h, this]
  refine ⟨hmain, fun t hp => ?_⟩
  rcases Bool.eq_false_or_eq_true (whitespaceOnly mc) with h | h
  · rw [← hmain] at h
    rw [hp] at h
    exact absurd h (by simp)
  · exact h

/-- Witness for C9: a whitespace-only input is rejected; a non-blank input
reaching the placeholder tree is not whitespace-only. -/
theorem invoke_empty_guard_witness :
    invokeStart "  \t\n".toList = .errorEmptyInput ∧
    whitespaceOnly "no structure".toList = false :=
  ⟨(invoke_empty_guard _).1.mpr (by decide),
   (invoke_empty_guard _).2 (.mk "Mind Map".toList 1 []) (by decide)⟩

/-!
## C10 - fence delimiter lines are skipped without tracking fence state
-/

/-- C10: the parser skips a line iff it is blank after `rstrip` or starts
with the fence delimiter; no in-fence state exists, so inserting a pair of
fence delimiter lines around any block of lines changes nothing, and a
heading or list line between two fences is parsed as usual - concretely,
the fenced document with the single heading `# H` parses to the node `H`. -/
theorem fence_lines_transparent :
    (∀ (pre mid post : List (List Char)) (f1 f2 : List Char),
      "```".toList.isPrefixOf (pyRstrip f1) = true →
      "```".toList.isPrefixOf (pyRstrip f2) = true →
      runLines (pre ++ f1 :: mid ++ f2 :: post) = runLines (pre ++ (mid ++ post))) ∧
    parse_markdown_to_tree "```\n# H\n```".toList = .mk "H".toList 1 [] := by
  constructor
  · intro pre mid post f1 f2 h1 h2
    have hf1 : ∀ st, processLine st f1 = st := fun st => processLine_skip st f1 (Or.inr h1)
    have hf2 : ∀ st, processLine st f2 = st := fun st => processLine_skip st f2 (Or.inr h2)
    unfold runLines
    simp [List.foldl_append, hf1, hf2]
  · decide

/-- Witness for C10: inserting a fence pair around `# H` leaves the parser
run unchanged. -/
theorem fence_lines_transparent_witness :
    runLines ["```".toList, "# H".toList, "```".toList] = runLines ["# H".toList] :=
  fence_lines_transparent.1 [] ["# H".toList] [] _ _ (by decide) (by decide)

/-!
## C4 - which lines reset the tracked last-heading level
-/

/-- C4 is false: a non-blank line that matches no recognized prefix is
skipped by `continue` BEFORE the reset on line 216 runs, so
`last_header_level` keeps its value (here `2`), and a following unindented
bullet still gets `lastHeadingLevel + 1 = 3` instead of the
indentation-derived `floor(0/2) + 2 = 2` the claim predicts. -/
theorem header_reset_counterexample :
    (processLine ⟨[], [], 2⟩ "plain".toList).lastHeader = 2 ∧
    ((parse_markdown_to_tree "## H\nplain\n- A".toList).children.map PNode.level) = [3] :=
  ⟨by decide, by decide⟩

/-- C4 amended: the `last_header_level = 0` reset happens exactly on
node-producing numbered-list lines; every other processed non-heading,
non-bullet line - in particular a non-blank line matching no recognized
prefix - leaves the parser state (including the last-heading level)
unchanged, so an unindented bullet after such a line is still attached
under the last heading. -/
theorem header_reset_amended :
    (∀ (st : PState) (raw : List Char),
      pyRstrip raw ≠ [] →
      "```".toList.isPrefixOf (pyRstrip raw) = false →
      "#".toList.isPrefixOf (pyRstrip raw) = false →
      matchNumbered (pyRstrip raw) = false →
      matchBullet (pyRstrip raw) = false →
      processLine st raw = st) ∧
    (∀ (st : PState) (raw : List Char),
      "```".toList.isPrefixOf (pyRstrip raw) = false →
      "#".toList.isPrefixOf (pyRstrip raw) = false →
      matchNumbered (pyRstrip raw) = true →
      clean_markdown_text (stripNumberedMarker (pyRstrip raw)) ≠ [] →
      (processLine st raw).lastHeader = 0) := by
  constructor
  · intro st raw h1 h2 h3 h4 h5
    have hd : decide (pyRstrip raw = []) = false := decide_eq_false h1
    unfold processLine
    simp only [h2, h3, h4, h5, hd, Bool.or_false]
    rfl
  · intro st raw h2 h3 h4 h5
    have h1 : ¬(pyRstrip raw = []) := by
      intro h
      rw [h] at h4
      exact absurd h4 (by decide)
    have hd : decide (pyRstrip raw = []) = false := decide_eq_false h1
    unfold processLine
    simp only [h2, h3, h4, hd, Bool.or_false]
    rw [if_true, if_neg h5]
    rfl

/-- Witness for C4 (amended): an unrecognized line changes nothing; a
node-producing numbered-list line zeroes the last-heading level. -/
theorem header_reset_amended_witness :
    processLine ⟨[], [], 2⟩ "plain".toList = ⟨[], [], 2⟩ ∧
    (processLine ⟨[], [], 5⟩ "1. x".toList).lastHeader = 0 :=
  ⟨header_reset_amended.1 _ _ (by decide) (by decide) (by decide) (by decide) (by decide),
   header_reset_amended.2 _ _ (by decide) (by decide) (by decide) (by decide)⟩

/-!
## C2 - level monotonicity of the parsed tree
-/

theorem strictB_mk (c : List Char) (l : Nat) (cs : List PNode) :
    strictB (.mk c l cs) = strictChildren l cs := rfl

theorem strictChildren_iff (l : Nat) (cs : List PNode) :
    strictChildren l cs = true ↔ ∀ c ∈ cs, l < c.level ∧ strictB c = true := by
  induction cs with
  | nil => simp [strictChildren]
  | cons c rest ih =>
    simp only [strictChildren, Bool.and_eq_true, decide_eq_true_eq, List.mem_cons, ih]
    constructor
    · rintro ⟨⟨h1, h2⟩, h3⟩ x hx
      rcases hx with rfl | hx
      · exact ⟨h1, h2⟩
      · exact h3 x hx
    · intro h
      exact ⟨h c (Or.inl rfl), fun x hx => h x (Or.inr hx)⟩

theorem closeEntry_ok {e : SEntry} (he : entryOK e) : nodeOK (closeEntry e) := by
  obtain ⟨hkids, hlvl⟩ := he
  refine ⟨?_, hlvl⟩
  rw [closeEntry, strictB_mk, strictChildren_iff]
  exact fun c hc => ⟨(hkids c hc).2, (hkids c hc).1⟩

theorem popGE_ok (lvl : Nat) (stack : List SEntry) :
    ∀ (ns : List PNode) (pend : Option PNode),
    stackOK stack → (∀ t ∈ ns, nodeOK t) →
    (∀ p, pend = some p → nodeOK p ∧ lvl ≤ p.level ∧
      ∀ e, stack.head? = some e → e.level < p.level) →
    stackOK (popGE lvl stack ns pend).1 ∧
    (∀ t ∈ (popGE lvl stack ns pend).2, nodeOK t) ∧
    (∀ e, (popGE lvl stack ns pend).1.head? = some e → e.level < lvl) := by
  induction stack with
  | nil =>
    intro ns pend hs hn hp
    cases pend with
    | none =>
      refine ⟨trivial, hn, ?_⟩
      intro e he
      exact absurd he (by simp [popGE])
    | some p =>
      refine ⟨trivial, ?_, ?_⟩
      · intro t ht
        simp only [popGE] at ht
        rcases List.mem_append.mp ht with h | h
        · exact hn t h
        · simp at h
          subst h
          exact (hp t rfl).1
      · intro e he
        exact absurd he (by simp [popGE])
  | cons e rest ih =>
    intro ns pend hs hn hp
    obtain ⟨he, hadj, hrest⟩ := hs
    have habs : entryOK (absorb e pend) ∧ (absorb e pend).level = e.level := by
      cases pend with
      | none => exact ⟨he, rfl⟩
      | some p =>
        obtain ⟨hpOK, _, hphead⟩ := hp p rfl
        have hlt : e.level < p.level := hphead e rfl
        refine ⟨⟨?_, he.2⟩, rfl⟩
        intro c hc
        rcases List.mem_append.mp hc with h | h
        · exact he.1 c h
        · simp at h
          subst h
          exact ⟨hpOK.1, hlt⟩
    show stackOK (popGE lvl (e :: rest) ns pend).1 ∧ _
    rw [popGE]
    by_cases hcond : lvl ≤ (absorb e pend).level
    · rw [if_pos hcond]
      apply ih
      · exact hrest
      · exact hn
      · intro p hpeq
        have hp' : p = closeEntry (absorb e pend) := by
          injection hpeq with h
          exact h.symm
        subst hp'
        refine ⟨closeEntry_ok habs.1, hcond, ?_⟩
        intro e2 h2
        have := hadj e2 h2
        rw [closeEntry]
        show e2.level < (absorb e pend).level
        rw [habs.2]
        exact this
    · rw [if_neg hcond]
      refine ⟨⟨habs.1, ?_, hrest⟩, hn, ?_⟩
      · intro e2 h2
        rw [habs.2]
        exact hadj e2 h2
      · intro e2 h2
        simp only [List.head?_cons, Option.some.injEq] at h2
        subst h2
        exact Nat.lt_of_not_le hcond

theorem pushNode_ok (st : PState) (content : List Char) (lvl : Nat)
    (hst : stateOK st) (hlvl : 1 ≤ lvl) : stateOK (pushNode st content lvl) := by
  obtain ⟨hn, hs⟩ := hst
  have h := popGE_ok lvl st.stack st.nodes none hs hn (fun p hp => nomatch hp)
  refine ⟨h.2.1, ⟨?_, hlvl⟩, ?_, h.1⟩
  · intro c hc
    exact absurd hc (by simp)
  · exact h.2.2

theorem countHashes_pos {l : List Char} (h : "#".toList.isPrefixOf l = true) :
    1 ≤ countHashes l := by
  cases l with
  | nil => exact absurd h (by decide)
  | cons c rest =>
    have hc : c = '#' := by
      simp only [List.isPrefixOf, Bool.and_eq_true, beq_iff_eq] at h
      exact h.1.symm
    subst hc
    simp [countHashes]

theorem processLine_ok (st : PState) (raw : List Char) (hst : stateOK st) :
    stateOK (processLine st raw) := by
  have hfields : ∀ (n : Nat), stateOK { st with lastHeader := n } := fun _ => hst
  unfold processLine
  by_cases hskip : (decide (pyRstrip raw = []) || "```".toList.isPrefixOf (pyRstrip raw)) = true
  · rw [if_pos hskip]
    exact hst
  · rw [if_neg hskip]
    by_cases hhash : "#".toList.isPrefixOf (pyRstrip raw) = true
    · rw [if_pos hhash]
      by_cases hempty : pyStrip (List.drop (countHashes (pyRstrip raw)) (pyRstrip raw)) = []
      · rw [if_pos hempty]
        exact hfields _
      · rw [if_neg hempty]
        exact pushNode_ok _ _ _ (hfields _) (countHashes_pos hhash)
    · rw [if_neg hhash]
      by_cases hnum : matchNumbered (pyRstrip raw) = true
      · rw [if_pos hnum]
        by_cases hempty : clean_markdown_text (stripNumberedMarker (pyRstrip raw)) = []
        · rw [if_pos hempty]
          exact hst
        · rw [if_neg hempty]
          exact pushNode_ok _ _ _ (hfields _) (by omega)
      · rw [if_neg hnum]
        by_cases hbul : matchBullet (pyRstrip raw) = true
        · rw [if_pos hbul]
          by_cases hempty : clean_markdown_text (stripBulletMarker (pyRstrip raw)) = []
          · rw [if_pos hempty]
            exact hst
          · rw [if_neg hempty]
            apply pushNode_ok _ _ _ hst
            by_cases hcl : (decide (leadingSpaces (pyRstrip raw) = 0)
                && decide (0 < st.lastHeader)) = true
            · rw [if_pos hcl]
              omega
            · rw [if_neg hcl]
              omega
        · rw [if_neg hbul]
          exact hst

theorem runLines_ok (lines : List (List Char)) : stateOK (runLines lines) := by
  unfold runLines
  have hgen : ∀ st, stateOK st → stateOK (lines.foldl processLine st) := by
    induction lines with
    | nil => exact fun st h => h
    | cons l rest ih => exact fun st h => ih _ (processLine_ok st l h)
  refine hgen initState ⟨?_, trivial⟩
  intro t ht
  exact absurd ht (by simp [initState])

theorem topLevelForest_ok (s : List Char) : ∀ t ∈ topLevelForest s, nodeOK t := by
  have h := runLines_ok (splitLines (pyStrip s))
  exact (popGE_ok 0 _ _ none h.2 h.1 (fun p hp => nomatch hp)).2.1

/-- C2 is false as stated: for the document `# A\n# B` the parser yields
two top-level level-1 headings, wrapped under the synthetic `'Mind Map'`
root of level 1, so two non-root nodes have level equal to - not strictly
greater than - their parent's level. -/
theorem level_monotonicity_counterexample :
    strictB (parse_markdown_to_tree "# A\n# B".toList) = false ∧
    (parse_markdown_to_tree "# A\n# B".toList).level = 1 ∧
    ((parse_markdown_to_tree "# A\n# B".toList).children.map PNode.level) = [1, 1] :=
  ⟨by decide, by decide, by decide⟩

/-- C2 amended: inside every top-level tree the parser builds, each child's
level is strictly greater than its parent's (the stack-based parent
assignment guarantees it), and every parsed node has level ≥ 1; but the
children of the returned root are only guaranteed level ≥ 1 - when the
synthetic level-1 `'Mind Map'` root wraps several top-level nodes, a
top-level level-1 heading among them matches, rather than exceeds, the
root's level. -/
theorem level_monotonicity_amended (s : List Char) :
    (∀ t ∈ topLevelForest s, strictB t = true ∧ 1 ≤ t.level) ∧
    (∀ c ∈ (parse_markdown_to_tree s).children, strictB c = true ∧ 1 ≤ c.level) ∧
    1 ≤ (parse_markdown_to_tree s).level := by
  have hf := topLevelForest_ok s
  refine ⟨hf, ?_, ?_⟩
  · intro c hc
    unfold parse_markdown_to_tree at hc
    rcases hcase : topLevelForest s with _ | ⟨n1, _ | ⟨n2, rest⟩⟩ <;> rw [hcase] at hc
    · exact absurd hc (by simp [PNode.children])
    · obtain ⟨hstrict, hlvl⟩ := hf n1 (by rw [hcase]; exact List.mem_singleton.mpr rfl)
      obtain ⟨hcontent, hl, hcs⟩ := n1
      rw [strictB_mk, strictChildren_iff] at hstrict
      have := hstrict c hc
      exact ⟨this.2, by omega⟩
    · have hc' : c ∈ n1 :: n2 :: rest := hc
      have := hf c (by rw [hcase]; exact hc')
      exact ⟨this.1, this.2⟩
  · unfold parse_markdown_to_tree
    rcases hcase : topLevelForest s with _ | ⟨n1, _ | ⟨n2, rest⟩⟩
    · exact Nat.le.refl
    · exact (hf n1 (by rw [hcase]; exact List.mem_singleton.mpr rfl)).2
    · exact Nat.le.refl

/-- Witness for C2 (amended) at the document `# A\n# B`: the child `A` of
the synthetic root is internally strict and has level `1 ≥ 1`. -/
theorem level_monotonicity_amended_witness :
    strictB (PNode.mk "A".toList 1 []) = true ∧ 1 ≤ (PNode.mk "A".toList 1 []).level :=
  (level_monotonicity_amended "# A\n# B".toList).2.1 (.mk "A".toList 1 []) (by decide)

/-!
## C6 - the horizontal truncation branch is unreachable
-/

theorem horizontalChildren_complete (xL yL nextX : ℚ) (d n : Nat) (aH vs : ℚ)
    (inh : String) (hg : nextX < xL - 1/2) :
    ∀ (cs : List PNode) (ys : List ℚ) (i : Nat),
      cs.length = ys.length →
      (∀ c ∈ cs, ∀ (sx sy : ℚ) (d' : Nat) (aH' : ℚ) (inh' : String),
        laidOutWithB (layout_dynamic_horizontal_mindmap xL yL c sx sy d' aH' inh').1 c = true) →
      laidOutKidsB (horizontalChildren xL yL nextX d n aH vs inh cs ys i).1 cs = true := by
  intro cs
  induction cs with
  | nil =>
    intro ys i _ _
    simp [horizontalChildren, laidOutKidsB]
  | cons c cs' ih =>
    intro ys i hlen hrec
    cases ys with
    | nil => exact absurd hlen (by simp)
    | cons y ys' =>
      simp only [horizontalChildren, if_pos hg, laidOutKidsB, Bool.and_eq_true]
      constructor
      · exact hrec c (List.mem_cons_self c cs') nextX y (d + 1) _ _
      · exact ih ys' (i + 1) (by simpa using hlen) (fun c' hc' => hrec c' (List.mem_cons_of_mem c hc'))

theorem horizontal_layout_complete (xL yL : ℚ) (node : PNode) :
    ∀ (sx sy : ℚ) (d : Nat) (aH : ℚ) (inh : String),
      laidOutWithB (layout_dynamic_horizontal_mindmap xL yL node sx sy d aH inh).1 node = true := by
  obtain ⟨c, l, cs⟩ := node
  intro sx sy d aH inh
  cases cs with
  | nil => simp [layout_dynamic_horizontal_mindmap, laidOutWithB, laidOutKidsB, PNode.content,
      PNode.children]
  | cons c1 rest =>
    have hg : (if sx + ((3 : ℚ) + (d : ℚ) * (1/2)) > xL - 1 then xL - 1
        else sx + ((3 : ℚ) + (d : ℚ) * (1/2))) < xL - 1/2 := by
      split_ifs with h
      · linarith
      · push_neg at h
        linarith
    have hlen : ((c1 :: rest) : List PNode).length
        = (if (c1 :: rest).length = 1 then [sy]
           else
            ((List.range (c1 :: rest).length).map
                (fun (i : Nat) => sy + (((c1 :: rest).length : ℚ) - 1)
                  * min (min (aH / ((Nat.max (c1 :: rest).length 1 : Nat) : ℚ)) 4) 3 / 2
                  - (i : ℚ) * min (min (aH / ((Nat.max (c1 :: rest).length 1 : Nat) : ℚ)) 4) 3)).map
              (fun p => max (-yL + 1/2) (min (yL - 1/2) p))).length := by
      split_ifs with h
      · simpa using h
      · simp only [List.length_map, List.length_range]
    simp only [layout_dynamic_horizontal_mindmap, laidOutWithB, Bool.and_eq_true, PNode.content,
      PNode.children]
    refine ⟨by simp, ?_⟩
    exact horizontalChildren_complete xL yL _ d (c1 :: rest).length aH _ inh hg (c1 :: rest) _ 0
      hlen (fun c' hc' sx' sy' d' aH' inh' =>
        horizontal_layout_complete xL yL c' sx' sy' d' aH' inh')
termination_by sizeOf node
decreasing_by
  simp only [PNode.mk.sizeOf_spec]
  have := List.sizeOf_lt_of_mem hc'
  omega

/-- C6 is a claim about a branch the code cannot reach: `next_x` is first
clamped to at most `x_limit - 1`, and `x_limit - 1 < x_limit - 0.5`, so the
recursion guard `next_x < x_limit - 0.5` always holds and the horizontal
layout recurses into EVERY child - no input produces the claimed
placed-but-not-recursed truncation.  Conjuncts: (1) the clamped `next_x` is
always below the guard threshold; (2) for every tree and every call
configuration the laid-out tree covers the source tree node for node;
(3)-(4) concretely, for the deep chain `chain6` (where the unclamped
`next_x` would exceed the limit from depth 4 on) all six levels are still
laid out. -/
theorem horizontal_truncation_unreachable :
    (∀ (xL sx : ℚ) (d : Nat),
      (if sx + ((3 : ℚ) + (d : ℚ) * (1/2)) > xL - 1 then xL - 1
       else sx + ((3 : ℚ) + (d : ℚ) * (1/2))) < xL - 1/2) ∧
    (∀ (xL yL : ℚ) (t : PNode) (sx sy : ℚ) (d : Nat) (aH : ℚ) (inh : String),
      laidOutWithB (layout_dynamic_horizontal_mindmap xL yL t sx sy d aH inh).1 t = true) ∧
    laidOutWithB (layoutHorizontalTop chain6).1 chain6 = true ∧
    calculate_tree_depth chain6 = 6 := by
  refine ⟨?_, fun xL yL t sx sy d aH inh => horizontal_layout_complete xL yL t sx sy d aH inh,
    ?_, by decide⟩
  · intro xL sx d
    split_ifs with h
    · linarith
    · push_neg at h
      linarith
  · exact horizontal_layout_complete _ _ chain6 _ _ _ _ _

/-!
## C8 - what Y value a horizontal recursive call reports
-/

theorem foldl_min_pull (a b : ℚ) (l : List ℚ) :
    min a (l.foldl min b) = l.foldl min (min a b) := by
  induction l generalizing b with
  | nil => rfl
  | cons x xs ih =>
    simp only [List.foldl_cons]
    rw [ih, ← min_assoc]

theorem foldl_max_pull (a b : ℚ) (l : List ℚ) :
    max a (l.foldl max b) = l.foldl max (max a b) := by
  induction l generalizing b with
  | nil => rfl
  | cons x xs ih =>
    simp only [List.foldl_cons]
    rw [ih, ← max_assoc]

theorem horizontalChildren_retY (xL yL nextX : ℚ) (d n : Nat) (aH vs : ℚ) (inh : String) :
    ∀ (cs : List PNode) (ys : List ℚ) (i : Nat),
      (∀ c ∈ cs, ∀ (sx sy : ℚ) (d' : Nat) (aH' : ℚ) (inh' : String),
        retOKB (layout_dynamic_horizontal_mindmap xL yL c sx sy d' aH' inh').1 = true ∧
        (layout_dynamic_horizontal_mindmap xL yL c sx sy d' aH' inh').2
          = (layout_dynamic_horizontal_mindmap xL yL c sx sy d' aH' inh').1.retY) →
      retOKKidsB (horizontalChildren xL yL nextX d n aH vs inh cs ys i).1 = true ∧
      (horizontalChildren xL yL nextX d n aH vs inh cs ys i).2.1
        = (match (horizontalChildren xL yL nextX d n aH vs inh cs ys i).1 with
           | [] => none
           | t :: ts => some (listMinFrom t.retY (ts.map HTree.retY))) ∧
      (horizontalChildren xL yL nextX d n aH vs inh cs ys i).2.2
        = (match (horizontalChildren xL yL nextX d n aH vs inh cs ys i).1 with
           | [] => none
           | t :: ts => some (listMaxFrom t.retY (ts.map HTree.retY))) := by
  intro cs
  induction cs with
  | nil =>
    intro ys i _
    refine ⟨by simp [horizontalChildren, retOKKidsB], by simp [horizontalChildren], by
      simp [horizontalChildren]⟩
  | cons c cs' ih =>
    intro ys i hrec
    cases ys with
    | nil =>
      refine ⟨by simp [horizontalChildren, retOKKidsB], by simp [horizontalChildren], by
        simp [horizontalChildren]⟩
    | cons y ys' =>
      have hhd : retOKB (if nextX < xL - 1/2 then
            layout_dynamic_horizontal_mindmap xL yL c nextX y (d + 1)
              (if 1 < n then max (vs * (4/5)) 1 else aH * (3/5))
              (if d = 1 then branchColorAt i else inh)
          else (.mk c.content nextX y (d + 1) (if d = 1 then branchColorAt i else inh) y [],
            y)).1 = true ∧
          (if nextX < xL - 1/2 then
            layout_dynamic_horizontal_mindmap xL yL c nextX y (d + 1)
              (if 1 < n then max (vs * (4/5)) 1 else aH * (3/5))
              (if d = 1 then branchColorAt i else inh)
          else (.mk c.content nextX y (d + 1) (if d = 1 then branchColorAt i else inh) y [],
            y)).2
          = (if nextX < xL - 1/2 then
            layout_dynamic_horizontal_mindmap xL yL c nextX y (d + 1)
              (if 1 < n then max (vs * (4/5)) 1 else aH * (3/5))
              (if d = 1 then branchColorAt i else inh)
          else (.mk c.content nextX y (d + 1) (if d = 1 then branchColorAt i else inh) y [],
            y)).1.retY := by
        by_cases hg : nextX < xL - 1/2
        · rw [if_pos hg]
          exact hrec c (List.mem_cons_self c cs') nextX y (d + 1) _ _
        · rw [if_neg hg]
          exact ⟨by simp [retOKB, retOKKidsB, HTree.retY], rfl⟩
      obtain ⟨ihOK, ihMin, ihMax⟩ := ih ys' (i + 1) (fun c' hc' => hrec c' (List.mem_cons_of_mem c hc'))
      simp only [horizontalChildren]
      refine ⟨?_, ?_, ?_⟩
      · simp only [retOKKidsB, Bool.and_eq_true]
        exact ⟨hhd.1, ihOK⟩
      · rw [ihMin, hhd.2]
        rcases hres : (horizontalChildren xL yL nextX d n aH vs inh cs' ys' (i + 1)).1 with
          _ | ⟨t, ts⟩
        · simp [listMinFrom]
        · simp only [Option.some.injEq, List.map_cons, listMinFrom, List.foldl_cons]
          exact foldl_min_pull _ _ _
      · rw [ihMax, hhd.2]
        rcases hres : (horizontalChildren xL yL nextX d n aH vs inh cs' ys' (i + 1)).1 with
          _ | ⟨t, ts⟩
        · simp [listMaxFrom]
        · simp only [Option.some.injEq, List.map_cons, listMaxFrom, List.foldl_cons]
          exact foldl_max_pull _ _ _

theorem horizontal_retY_aux (xL yL : ℚ) (node : PNode) :
    ∀ (sx sy : ℚ) (d : Nat) (aH : ℚ) (inh : String),
      retOKB (layout_dynamic_horizontal_mindmap xL yL node sx sy d aH inh).1 = true ∧
      (layout_dynamic_horizontal_mindmap xL yL node sx sy d aH inh).2
        = (layout_dynamic_horizontal_mindmap xL yL node sx sy d aH inh).1.retY := by
  obtain ⟨c, l, cs⟩ := node
  intro sx sy d aH inh
  cases cs with
  | nil => exact ⟨by simp [layout_dynamic_horizontal_mindmap, retOKB, retOKKidsB], rfl⟩
  | cons c1 rest =>
    have hkids := horizontalChildren_retY xL yL
      (if sx + ((3 : ℚ) + (d : ℚ) * (1/2)) > xL - 1 then xL - 1
       else sx + ((3 : ℚ) + (d : ℚ) * (1/2)))
      d (c1 :: rest).length aH
      (min (min (aH / ((Nat.max (c1 :: rest).length 1 : Nat) : ℚ)) 4) 3) inh (c1 :: rest)
      (if (c1 :: rest).length = 1 then [sy]
       else
        ((List.range (c1 :: rest).length).map
            (fun (i : Nat) => sy + (((c1 :: rest).length : ℚ) - 1)
              * min (min (aH / ((Nat.max (c1 :: rest).length 1 : Nat) : ℚ)) 4) 3 / 2
              - (i : ℚ) * min (min (aH / ((Nat.max (c1 :: rest).length 1 : Nat) : ℚ)) 4) 3)).map
          (fun p => max (-yL + 1/2) (min (yL - 1/2) p)))
      0
      (fun c' hc' sx' sy' d' aH' inh' => horizontal_retY_aux xL yL c' sx' sy' d' aH' inh')
    obtain ⟨hOK, hMin, hMax⟩ := hkids
    simp only [layout_dynamic_horizontal_mindmap]
    rcases hres : (horizontalChildren _ _ _ _ _ _ _ _ (c1 :: rest) _ 0).1 with _ | ⟨t, ts⟩
    · rw [hres] at hMin hMax hOK
      simp only at hMin hMax
      refine ⟨?_, ?_⟩
      · simp only [hMin, hMax, retOKB, hres, hOK, Bool.and_true]
        simp
      · simp only [hMin, hMax, HTree.retY]
    · rw [hres] at hMin hMax hOK
      simp only at hMin hMax
      refine ⟨?_, ?_⟩
      · simp only [hMin, hMax, retOKB, hres, hOK, Bool.and_true, HTree.retY]
        simp
      · simp only [hMin, hMax, HTree.retY]
termination_by sizeOf node
decreasing_by
  simp only [PNode.mk.sizeOf_spec]
  have := List.sizeOf_lt_of_mem hc'
  omega

/-- C8 amended: the Y value a horizontal recursive call returns is computed
bottom-up from its immediate children's returned values - a childless node
returns its own Y, a node with laid-out children returns the midpoint of
the minimum and maximum of the values its children returned (NOT of all Y
coordinates its descendants use); the positioned tree records every call's
returned value in `retY` and the top-level call returns the root's. -/
theorem horizontal_reported_midpoint_amended (t : PNode) :
    retOKB (layoutHorizontalTop t).1 = true ∧
    (layoutHorizontalTop t).2 = (layoutHorizontalTop t).1.retY :=
  horizontal_retY_aux _ _ t _ _ _ _ _

/-!
## C1 - color inheritance below the depth 1→2 edge
-/

theorem layoutC_fields {R : Type} [LinearOrderedField R] (g : Geom R) (L : R) (node : PNode)
    (cx cy : R) (d : Nat) (pA aR : R) (inh : String) :
    (layout_dynamic_center_mindmap g L node cx cy d pA aR inh).x = cx ∧
    (layout_dynamic_center_mindmap g L node cx cy d pA aR inh).y = cy ∧
    (layout_dynamic_center_mindmap g L node cx cy d pA aR inh).depth = d ∧
    (layout_dynamic_center_mindmap g L node cx cy d pA aR inh).angle = pA ∧
    (layout_dynamic_center_mindmap g L node cx cy d pA aR inh).color
      = (if d = 1 then rootColor else inh) := by
  obtain ⟨c, l, cs⟩ := node
  cases cs <;>
    simp [layout_dynamic_center_mindmap, PTreeC.x, PTreeC.y, PTreeC.depth, PTreeC.angle,
      PTreeC.color]

theorem colorOK3KidsC_iff {R : Type} (pcol : String) (cs : List (PTreeC R)) :
    colorOK3KidsC pcol cs = true ↔
      ∀ c ∈ cs, (3 ≤ c.depth → c.color = pcol) ∧ colorOK3C c = true := by
  induction cs with
  | nil => simp [colorOK3KidsC]
  | cons c rest ih =>
    simp only [colorOK3KidsC, Bool.and_eq_true, Bool.or_eq_true, Bool.not_eq_true',
      decide_eq_true_eq, decide_eq_false_iff_not, ih, List.mem_cons]
    constructor
    · rintro ⟨⟨h1, h2⟩, h3⟩ x hx
      rcases hx with rfl | hx
      · refine ⟨?_, h2⟩
        intro hd
        rcases h1 with h1 | h1
        · exact absurd hd h1
        · exact h1
      · exact h3 x hx
    · intro h
      refine ⟨⟨?_, (h c (Or.inl rfl)).2⟩, fun x hx => h x (Or.inr hx)⟩
      by_cases hd : 3 ≤ c.depth
      · exact Or.inr ((h c (Or.inl rfl)).1 hd)
      · exact Or.inl hd

theorem colorOK3C_mk {R : Type} (c : List Char) (x y : R) (d : Nat) (a : R) (col : String)
    (cs : List (PTreeC R)) :
    colorOK3C (.mk c x y d a col cs) = colorOK3KidsC col cs := rfl

theorem centerChildrenColor {R : Type} [LinearOrderedField R] (g : Geom R) (L : R)
    (cx cy : R) (d n : Nat) (radius aR : R) (inh : String) :
    ∀ (cs : List PNode) (θs : List R) (i : Nat),
      (∀ c ∈ cs, ∀ (cx' cy' : R) (d' : Nat) (pA' aR' : R) (col : String),
        (layout_dynamic_center_mindmap g L c cx' cy' d' pA' aR' col).depth = d' ∧
        (layout_dynamic_center_mindmap g L c cx' cy' d' pA' aR' col).color
          = (if d' = 1 then rootColor else col) ∧
        colorOK3C (layout_dynamic_center_mindmap g L c cx' cy' d' pA' aR' col) = true) →
      ∀ t ∈ centerChildren g L cx cy d n radius aR inh cs θs i,
        t.depth = d + 1 ∧ colorOK3C t = true ∧ (2 ≤ d → t.color = inh) := by
  intro cs
  induction cs with
  | nil =>
    intro θs i _ t ht
    exact absurd ht (by simp [centerChildren])
  | cons c cs' ih =>
    intro θs i hrec t ht
    cases θs with
    | nil => exact absurd ht (by simp [centerChildren])
    | cons θ θs' =>
      simp only [centerChildren, List.mem_cons] at ht
      rcases ht with rfl | ht
      · obtain ⟨hdep, hcol, hok⟩ := hrec c (List.mem_cons_self c cs') _ _ (d + 1) θ _ _
        refine ⟨hdep, hok, ?_⟩
        intro hd2
        rw [hcol, if_neg (by omega), if_neg (by omega)]
      · exact ih θs' (i + 1) (fun c' hc' => hrec c' (List.mem_cons_of_mem c hc')) t ht

theorem centerColorAux {R : Type} [LinearOrderedField R] (g : Geom R) (L : R) (node : PNode) :
    ∀ (cx cy : R) (d : Nat) (pA aR : R) (inh : String),
      (layout_dynamic_center_mindmap g L node cx cy d pA aR inh).depth = d ∧
      (layout_dynamic_center_mindmap g L node cx cy d pA aR inh).color
        = (if d = 1 then rootColor else inh) ∧
      colorOK3C (layout_dynamic_center_mindmap g L node cx cy d pA aR inh) = true := by
  obtain ⟨c, l, cs⟩ := node
  intro cx cy d pA aR inh
  obtain ⟨hx, hy, hdep, hang, hcol⟩ := layoutC_fields g L (.mk c l cs) cx cy d pA aR inh
  refine ⟨hdep, hcol, ?_⟩
  cases cs with
  | nil => simp [layout_dynamic_center_mindmap, colorOK3C, colorOK3KidsC]
  | cons c1 rest =>
    have hkids := centerChildrenColor g L cx cy d (c1 :: rest).length
      (min ((3 : R) + (d : R) * (3/10) + (((c1 :: rest).length : Nat) : R) * (1/20)) (L * (3/10)))
      aR inh (c1 :: rest)
      (if (c1 :: rest).length = 1 then [if pA ≠ 0 then pA else 0]
       else if d = 1 then
        (List.range (c1 :: rest).length).map
          (fun (i : Nat) => (0 : R) + (i : R) * (2 * g.pi / (((c1 :: rest).length : Nat) : R)))
       else
        (List.range (c1 :: rest).length).map
          (fun (i : Nat) => pA - aR / 2
            + (i : R) * (aR / ((Nat.max ((c1 :: rest).length - 1) 1 : Nat) : R))))
      0
      (fun c' hc' cx' cy' d' pA' aR' col' => centerColorAux g L c' cx' cy' d' pA' aR' col')
    simp only [layout_dynamic_center_mindmap]
    rw [colorOK3C_mk, colorOK3KidsC_iff]
    intro t ht
    obtain ⟨htd, htok, htcol⟩ := hkids t ht
    refine ⟨?_, htok⟩
    intro h3
    have hd2 : 2 ≤ d := by omega
    rw [htcol hd2, if_neg (by omega)]
termination_by sizeOf node
decreasing_by
  simp only [PNode.mk.sizeOf_spec]
  have := List.sizeOf_lt_of_mem hc'
  omega

theorem colorOK3KidsH_iff (pcol : String) (cs : List HTree) :
    colorOK3KidsH pcol cs = true ↔
      ∀ c ∈ cs, (3 ≤ c.depth → c.color = pcol) ∧ colorOK3H c = true := by
  induction cs with
  | nil => simp [colorOK3KidsH]
  | cons c rest ih =>
    simp only [colorOK3KidsH, Bool.and_eq_true, Bool.or_eq_true, Bool.not_eq_true',
      decide_eq_true_eq, decide_eq_false_iff_not, ih, List.mem_cons]
    constructor
    · rintro ⟨⟨h1, h2⟩, h3⟩ x hx
      rcases hx with rfl | hx
      · refine ⟨?_, h2⟩
        intro hd
        rcases h1 with h1 | h1
        · exact absurd hd h1
        · exact h1
      · exact h3 x hx
    · intro h
      refine ⟨⟨?_, (h c (Or.inl rfl)).2⟩, fun x hx => h x (Or.inr hx)⟩
      by_cases hd : 3 ≤ c.depth
      · exact Or.inr ((h c (Or.inl rfl)).1 hd)
      · exact Or.inl hd

theorem colorOK3H_mk (c : List Char) (x y : ℚ) (d : Nat) (col : String) (r : ℚ)
    (cs : List HTree) :
    colorOK3H (.mk c x y d col r cs) = colorOK3KidsH col cs := rfl

theorem horizChildrenColor (xL yL nextX : ℚ) (d n : Nat) (aH vs : ℚ) (inh : String) :
    ∀ (cs : List PNode) (ys : List ℚ) (i : Nat),
      (∀ c ∈ cs, ∀ (sx' sy' : ℚ) (d' : Nat) (aH' : ℚ) (col : String),
        (layout_dynamic_horizontal_mindmap xL yL c sx' sy' d' aH' col).1.depth = d' ∧
        (layout_dynamic_horizontal_mindmap xL yL c sx' sy' d' aH' col).1.color
          = (if d' = 1 then rootColor else col) ∧
        colorOK3H (layout_dynamic_horizontal_mindmap xL yL c sx' sy' d' aH' col).1 = true) →
      ∀ t ∈ (horizontalChildren xL yL nextX d n aH vs inh cs ys i).1,
        t.depth = d + 1 ∧ colorOK3H t = true ∧ (2 ≤ d → t.color = inh) := by
  intro cs
  induction cs with
  | nil =>
    intro ys i _ t ht
    exact absurd ht (by simp [horizontalChildren])
  | cons c cs' ih =>
    intro ys i hrec t ht
    cases ys with
    | nil => exact absurd ht (by simp [horizontalChildren])
    | cons y ys' =>
      simp only [horizontalChildren, List.mem_cons] at ht
      rcases ht with rfl | ht
      · by_cases hg : nextX < xL - 1/2
        · rw [if_pos hg]
          obtain ⟨hdep, hcol, hok⟩ := hrec c (List.mem_cons_self c cs') nextX y (d + 1) _ _
          refine ⟨hdep, hok, ?_⟩
          intro hd2
          rw [hcol, if_neg (by omega), if_neg (by omega)]
        · rw [if_neg hg]
          refine ⟨rfl, by simp [colorOK3H, colorOK3KidsH], ?_⟩
          intro hd2
          show (if d = 1 then branchColorAt i else inh) = inh
          rw [if_neg (by omega)]
      · exact ih ys' (i + 1) (fun c' hc' => hrec c' (List.mem_cons_of_mem c hc')) t ht

theorem horizColorAux (xL yL : ℚ) (node : PNode) :
    ∀ (sx sy : ℚ) (d : Nat) (aH : ℚ) (inh : String),
      (layout_dynamic_horizontal_mindmap xL yL node sx sy d aH inh).1.depth = d ∧
      (layout_dynamic_horizontal_mindmap xL yL node sx sy d aH inh).1.color
        = (if d = 1 then rootColor else inh) ∧
      colorOK3H (layout_dynamic_horizontal_mindmap xL yL node sx sy d aH inh).1 = true := by
  obtain ⟨c, l, cs⟩ := node
  intro sx sy d aH inh
  cases cs with
  | nil =>
    refine ⟨rfl, rfl, ?_⟩
    simp [layout_dynamic_horizontal_mindmap, colorOK3H, colorOK3KidsH]
  | cons c1 rest =>
    have hkids := horizChildrenColor xL yL
      (if sx + ((3 : ℚ) + (d : ℚ) * (1/2)) > xL - 1 then xL - 1
       else sx + ((3 : ℚ) + (d : ℚ) * (1/2)))
      d (c1 :: rest).length aH
      (min (min (aH / ((Nat.max (c1 :: rest).length 1 : Nat) : ℚ)) 4) 3) inh (c1 :: rest)
      (if (c1 :: rest).length = 1 then [sy]
       else
        ((List.range (c1 :: rest).length).map
            (fun (i : Nat) => sy + (((c1 :: rest).length : ℚ) - 1)
              * min (min (aH / ((Nat.max (c1 :: rest).length 1 : Nat) : ℚ)) 4) 3 / 2
              - (i : ℚ) * min (min (aH / ((Nat.max (c1 :: rest).length 1 : Nat) : ℚ)) 4) 3)).map
          (fun p => max (-yL + 1/2) (min (yL - 1/2) p)))
      0
      (fun c' hc' sx' sy' d' aH' col' => horizColorAux xL yL c' sx' sy' d' aH' col')
    refine ⟨rfl, rfl, ?_⟩
    simp only [layout_dynamic_horizontal_mindmap]
    rw [colorOK3H_mk, colorOK3KidsH_iff]
    intro t ht
    obtain ⟨htd, htok, htcol⟩ := hkids t ht
    refine ⟨?_, htok⟩
    intro h3
    have hd2 : 2 ≤ d := by omega
    rw [htcol hd2, if_neg (by omega)]
termination_by sizeOf node
decreasing_by
  simp only [PNode.mk.sizeOf_spec]
  have := List.sizeOf_lt_of_mem hc'
  omega

/-- C1 as stated is false at the depth 1→2 edge: a node at depth 2 carries
the fresh palette color chosen for its branch while its parent - the root -
is colored `'#333333'`, so `node.color = parent.color` fails at depth 2 in
both engines (here on the two-node tree `R → A`: `A` at depth 2 has color
`'#FF6B6B' ≠ '#333333'`). -/
theorem color_claim_counterexample :
    colorClaim2C (layoutCenterTop realGeom (.mk "R".toList 1 [.mk "A".toList 2 []])) = false ∧
    colorClaim2H (layoutHorizontalTop (.mk "R".toList 1 [.mk "A".toList 2 []])).1 = false := by
  constructor
  · simp only [layoutCenterTop, layout_dynamic_center_mindmap, centerChildren, colorClaim2C,
      colorClaim2KidsC, PTreeC.depth, PTreeC.color, branchColorAt, branch_colors, rootColor,
      PNode.children]
    decide
  · norm_num [layoutHorizontalTop, layout_dynamic_horizontal_mindmap, horizontalChildren,
      colorClaim2H, colorClaim2KidsH, HTree.depth, HTree.color, branchColorAt, branch_colors,
      rootColor, PNode.children, horizontalXLimit, horizontalYLimit, calculate_tree_depth,
      maxDepthList, count_total_nodes, countNodesList]
    decide

/-- C1 amended: in both engines color is constant strictly below the depth
1→2 edge - every node at depth ≥ 3 has exactly its parent's color; the
depth-2 nodes are where the branch palette color is chosen (differing from
the root's fixed neutral `'#333333'`). -/
theorem color_inheritance_amended :
    (∀ (R : Type) [LinearOrderedField R] (g : Geom R) (t : PNode),
      colorOK3C (layoutCenterTop g t) = true) ∧
    (∀ t : PNode, colorOK3H (layoutHorizontalTop t).1 = true) :=
  ⟨fun R _ g t => (centerColorAux g _ t 0 0 1 0 (2 * g.pi) rootColor).2.2,
   fun t => (horizColorAux _ _ t (-2) 0 1 _ rootColor).2.2⟩

/-!
## C5 - angles and palette colors of the root's children
-/

theorem getD_map_range {R : Type} (n i : Nat) (f : Nat → R) (hi : i < n) (d : R) :
    ((List.range n).map f).getD i d = f i := by
  rw [List.getD_eq_getElem?_getD, List.getElem?_map, List.getElem?_range hi]
  rfl

theorem centerChildren_length {R : Type} [LinearOrderedField R] (g : Geom R) (L : R)
    (cx cy : R) (d n : Nat) (radius aR : R) (inh : String) :
    ∀ (cs : List PNode) (θs : List R) (i : Nat),
      (centerChildren g L cx cy d n radius aR inh cs θs i).length
        = Nat.min cs.length θs.length := by
  intro cs
  induction cs with
  | nil =>
    intro θs i
    simp [centerChildren]
  | cons c cs' ih =>
    intro θs i
    cases θs with
    | nil => simp [centerChildren]
    | cons θ θs' =>
      simp only [centerChildren, List.length_cons, ih θs' (i + 1), Nat.min_def]
      split_ifs <;> omega

theorem centerChildren_getD {R : Type} [LinearOrderedField R] (g : Geom R) (L : R)
    (cx cy : R) (d n : Nat) (radius aR : R) (inh : String) :
    ∀ (cs : List PNode) (θs : List R) (i k : Nat),
      k < cs.length → k < θs.length →
      ((centerChildren g L cx cy d n radius aR inh cs θs i).getD k dfltC).angle
          = θs.getD k 0 ∧
      ((centerChildren g L cx cy d n radius aR inh cs θs i).getD k dfltC).color
          = (if d + 1 = 1 then rootColor
             else if d = 1 then branchColorAt (i + k) else inh) := by
  intro cs
  induction cs with
  | nil =>
    intro θs i k hk _
    exact absurd hk (by simp)
  | cons c cs' ih =>
    intro θs i k hk hkθ
    cases θs with
    | nil => exact absurd hkθ (by simp)
    | cons θ θs' =>
      cases k with
      | zero =>
        obtain ⟨_, _, _, hang, hcol⟩ := layoutC_fields g L c
          (max (-L + 1) (min (L - 1) (cx + radius * g.cos θ)))
          (max (-L + 1) (min (L - 1) (cy + radius * g.sin θ))) (d + 1) θ
          (if 0 < c.children.length then min (g.pi / 3) (aR / ((Nat.max n 1 : Nat) : R)) else 0)
          (if d = 1 then branchColorAt i else inh)
        refine ⟨?_, ?_⟩
        · simpa [centerChildren, List.getD] using hang
        · simp only [centerChildren, List.getD_cons_zero]
          rw [hcol]
          rcases d with _ | (_ | d)
          · simp
          · simp
          · simp
      | succ k' =>
        have := ih θs' (i + 1) k' (by simpa using hk) (by simpa using hkθ)
        simp only [centerChildren, List.getD_cons_succ]
        rw [this.1, this.2]
        refine ⟨rfl, ?_⟩
        have : i + 1 + k' = i + (k' + 1) := by omega
        rw [this]

/-- C5: in the radial engine, a root with `n ≥ 2` children places its
`i`-th child (0-based document order) at angle `i * (2π/n)` starting at
angle `0`, gives it the `i`-th branch-palette color cyclically
(`branch_colors[i % 12]`), and draws the root itself at the origin. -/
theorem radial_root_angles_colors (R : Type) [LinearOrderedField R] (g : Geom R)
    (t : PNode) (i : Nat) (h2 : 2 ≤ t.children.length) (hi : i < t.children.length) :
    (layoutCenterTop g t).children.length = t.children.length ∧
    ((layoutCenterTop g t).children.getD i dfltC).angle
      = (i : R) * (2 * g.pi / (t.children.length : R)) ∧
    ((layoutCenterTop g t).children.getD i dfltC).color = branchColorAt i ∧
    (layoutCenterTop g t).x = 0 ∧ (layoutCenterTop g t).y = 0 := by
  obtain ⟨c, l, cs⟩ := t
  have hx0 := layoutC_fields g ((centerAxisLimit (.mk c l cs) : Nat) : R) (.mk c l cs)
    0 0 1 0 (2 * g.pi) rootColor
  cases cs with
  | nil => exact absurd h2 (by simp [PNode.children])
  | cons c1 rest =>
    have hn1 : ¬((c1 :: rest).length = 1) := by
      simp only [PNode.children] at h2
      omega
    have hi' : i < (c1 :: rest).length := hi
    have hget := centerChildren_getD g ((centerAxisLimit (.mk c l (c1 :: rest)) : Nat) : R)
      0 0 1 (c1 :: rest).length
      (min ((3 : R) + ((1 : Nat) : R) * (3/10) + (((c1 :: rest).length : Nat) : R) * (1/20))
        (((centerAxisLimit (.mk c l (c1 :: rest)) : Nat) : R) * (3/10)))
      (2 * g.pi) rootColor (c1 :: rest)
      ((List.range (c1 :: rest).length).map
        (fun (j : Nat) => (0 : R) + (j : R) * (2 * g.pi / (((c1 :: rest).length : Nat) : R))))
      0 i hi' (by simpa using hi')
    have hlen := centerChildren_length g ((centerAxisLimit (.mk c l (c1 :: rest)) : Nat) : R)
      0 0 1 (c1 :: rest).length
      (min ((3 : R) + ((1 : Nat) : R) * (3/10) + (((c1 :: rest).length : Nat) : R) * (1/20))
        (((centerAxisLimit (.mk c l (c1 :: rest)) : Nat) : R) * (3/10)))
      (2 * g.pi) rootColor (c1 :: rest)
      ((List.range (c1 :: rest).length).map
        (fun (j : Nat) => (0 : R) + (j : R) * (2 * g.pi / (((c1 :: rest).length : Nat) : R))))
      0
    have hch : (layoutCenterTop g (.mk c l (c1 :: rest))).children
        = centerChildren g ((centerAxisLimit (.mk c l (c1 :: rest)) : Nat) : R) 0 0 1
            (c1 :: rest).length
            (min ((3 : R) + ((1 : Nat) : R) * (3/10)
                + (((c1 :: rest).length : Nat) : R) * (1/20))
              (((centerAxisLimit (.mk c l (c1 :: rest)) : Nat) : R) * (3/10)))
            (2 * g.pi) rootColor (c1 :: rest)
            ((List.range (c1 :: rest).length).map
              (fun (j : Nat) => (0 : R) + (j : R)
                * (2 * g.pi / (((c1 :: rest).length : Nat) : R))))
            0 := by
      show (layout_dynamic_center_mindmap g _ (.mk c l (c1 :: rest)) 0 0 1 0
        (2 * g.pi) rootColor).children = _
      simp only [layout_dynamic_center_mindmap, PTreeC.children]
      rw [if_neg hn1]
      simp only [eq_self_iff_true, if_true]
    refine ⟨?_, ?_, ?_, hx0.1, hx0.2.1⟩
    · rw [hch, hlen]
      simp [PNode.children]
    · rw [hch, hget.1, getD_map_range _ _ _ hi']
      show (0 : R) + _ = _
      rw [zero_add]
      rfl
    · rw [hch, hget.2]
      norm_num

/-- Witness for C5: for `# Root` with three unindented bullets `A`, `B`,
`C`, the real radial engine puts the root at the origin and the three
children at angles `0`, `2π/3`, `4π/3` with the palette's first three
colors. -/
theorem radial_root_angles_colors_witness :
    (layoutCenterTop realGeom
        (parse_markdown_to_tree "# Root\n- A\n- B\n- C".toList)).children.length = 3 ∧
    ((layoutCenterTop realGeom
        (parse_markdown_to_tree "# Root\n- A\n- B\n- C".toList)).children.getD 0 dfltC).angle
      = 0 ∧
    ((layoutCenterTop realGeom
        (parse_markdown_to_tree "# Root\n- A\n- B\n- C".toList)).children.getD 1 dfltC).angle
      = 2 * Real.pi / 3 ∧
    ((layoutCenterTop realGeom
        (parse_markdown_to_tree "# Root\n- A\n- B\n- C".toList)).children.getD 2 dfltC).angle
      = 4 * Real.pi / 3 ∧
    ((layoutCenterTop realGeom
        (parse_markdown_to_tree "# Root\n- A\n- B\n- C".toList)).children.getD 0 dfltC).color
      = "#FF6B6B" ∧
    ((layoutCenterTop realGeom
        (parse_markdown_to_tree "# Root\n- A\n- B\n- C".toList)).children.getD 1 dfltC).color
      = "#4ECDC4" ∧
    ((layoutCenterTop realGeom
        (parse_markdown_to_tree "# Root\n- A\n- B\n- C".toList)).children.getD 2 dfltC).color
      = "#45B7D1" ∧
    (layoutCenterTop realGeom
        (parse_markdown_to_tree "# Root\n- A\n- B\n- C".toList)).x = 0 ∧
    (layoutCenterTop realGeom
        (parse_markdown_to_tree "# Root\n- A\n- B\n- C".toList)).y = 0 := by
  have hlen : (parse_markdown_to_tree "# Root\n- A\n- B\n- C".toList).children.length = 3 := by
    decide
  have h0 := radial_root_angles_colors ℝ realGeom
    (parse_markdown_to_tree "# Root\n- A\n- B\n- C".toList) 0 (by decide) (by decide)
  have h1 := radial_root_angles_colors ℝ realGeom
    (parse_markdown_to_tree "# Root\n- A\n- B\n- C".toList) 1 (by decide) (by decide)
  have h2 := radial_root_angles_colors ℝ realGeom
    (parse_markdown_to_tree "# Root\n- A\n- B\n- C".toList) 2 (by decide) (by decide)
  rw [hlen] at h0 h1 h2
  refine ⟨by rw [h0.1], ?_, ?_, ?_, ?_, ?_, ?_, h0.2.2.2⟩
  · rw [h0.2.1]
    norm_num
  · rw [h1.2.1]
    simp only [realGeom]
    push_cast
    ring
  · rw [h2.2.1]
    simp only [realGeom]
    push_cast
    ring
  · rw [h0.2.2.1]
    decide
  · rw [h1.2.2.1]
    decide
  · rw [h2.2.2.1]
    decide

/-!
## C7 - containment of positioned nodes in the axis extents
-/

theorem clamp_bounds {R : Type} [LinearOrderedField R] (L v : R) (hL : 1 ≤ L) :
    -L ≤ max (-L + 1) (min (L - 1) v) ∧ max (-L + 1) (min (L - 1) v) ≤ L := by
  constructor
  · have h1 : -L ≤ -L + 1 := by linarith
    exact le_trans h1 (le_max_left _ _)
  · apply max_le
    · linarith
    · have h2 : min (L - 1) v ≤ L - 1 := min_le_left _ _
      linarith

theorem centerChildrenBounds {R : Type} [LinearOrderedField R] (g : Geom R) (L : R)
    (cx cy : R) (d n : Nat) (radius aR : R) (inh : String) (hL : 1 ≤ L) :
    ∀ (cs : List PNode) (θs : List R) (i : Nat),
      (∀ c ∈ cs, ∀ (cx' cy' : R) (d' : Nat) (pA' aR' : R) (col : String),
        -L ≤ cx' → cx' ≤ L → -L ≤ cy' → cy' ≤ L →
        ∀ t ∈ allNodesC (layout_dynamic_center_mindmap g L c cx' cy' d' pA' aR' col),
          -L ≤ t.x ∧ t.x ≤ L ∧ -L ≤ t.y ∧ t.y ≤ L) →
      ∀ t ∈ allNodesListC (centerChildren g L cx cy d n radius aR inh cs θs i),
        -L ≤ t.x ∧ t.x ≤ L ∧ -L ≤ t.y ∧ t.y ≤ L := by
  intro cs
  induction cs with
  | nil =>
    intro θs i _ t ht
    exact absurd ht (by simp [centerChildren, allNodesListC])
  | cons c cs' ih =>
    intro θs i hrec t ht
    cases θs with
    | nil => exact absurd ht (by simp [centerChildren, allNodesListC])
    | cons θ θs' =>
      simp only [centerChildren, allNodesListC] at ht
      rcases List.mem_append.mp ht with h | h
      · have hcx := clamp_bounds L (cx + radius * g.cos θ) hL
        have hcy := clamp_bounds L (cy + radius * g.sin θ) hL
        exact hrec c (List.mem_cons_self c cs') _ _ (d + 1) θ _ _
          hcx.1 hcx.2 hcy.1 hcy.2 t h
      · exact ih θs' (i + 1) (fun c' hc' => hrec c' (List.mem_cons_of_mem c hc')) t h

theorem centerBoundsAux {R : Type} [LinearOrderedField R] (g : Geom R) (L : R) (node : PNode) :
    ∀ (cx cy : R) (d : Nat) (pA aR : R) (inh : String),
      1 ≤ L → -L ≤ cx → cx ≤ L → -L ≤ cy → cy ≤ L →
      ∀ t ∈ allNodesC (layout_dynamic_center_mindmap g L node cx cy d pA aR inh),
        -L ≤ t.x ∧ t.x ≤ L ∧ -L ≤ t.y ∧ t.y ≤ L := by
  obtain ⟨c, l, cs⟩ := node
  intro cx cy d pA aR inh hL h1 h2 h3 h4 t ht
  cases cs with
  | nil =>
    simp only [layout_dynamic_center_mindmap, allNodesC, allNodesListC, List.mem_cons,
      List.not_mem_nil, or_false] at ht
    subst ht
    exact ⟨h1, h2, h3, h4⟩
  | cons c1 rest =>
    simp only [layout_dynamic_center_mindmap, allNodesC, List.mem_cons] at ht
    rcases ht with rfl | ht
    · exact ⟨h1, h2, h3, h4⟩
    · refine centerChildrenBounds g L cx cy d (c1 :: rest).length _ _ inh hL
        (c1 :: rest) _ 0 ?_ t ht
      intro c' hc' cx' cy' d' pA' aR' col' h1' h2' h3' h4'
      exact centerBoundsAux g L c' cx' cy' d' pA' aR' col' hL h1' h2' h3' h4'
termination_by sizeOf node
decreasing_by
  simp only [PNode.mk.sizeOf_spec]
  have := List.sizeOf_lt_of_mem hc'
  omega

theorem horizChildrenBounds (xL yL nextX : ℚ) (d n : Nat) (aH vs : ℚ) (inh : String)
    (hx1 : -3 ≤ nextX) (hx2 : nextX ≤ xL) (hyL : 1 ≤ yL) :
    ∀ (cs : List PNode) (ys : List ℚ) (i : Nat),
      (∀ y ∈ ys, -yL ≤ y ∧ y ≤ yL) →
      (∀ c ∈ cs, ∀ (sx' sy' : ℚ) (d' : Nat) (aH' : ℚ) (col : String),
        -3 ≤ sx' → sx' ≤ xL → -yL ≤ sy' → sy' ≤ yL →
        ∀ t ∈ allNodesH (layout_dynamic_horizontal_mindmap xL yL c sx' sy' d' aH' col).1,
          -3 ≤ t.x ∧ t.x ≤ xL ∧ -yL ≤ t.y ∧ t.y ≤ yL) →
      ∀ t ∈ allNodesListH (horizontalChildren xL yL nextX d n aH vs inh cs ys i).1,
        -3 ≤ t.x ∧ t.x ≤ xL ∧ -yL ≤ t.y ∧ t.y ≤ yL := by
  intro cs
  induction cs with
  | nil =>
    intro ys i _ _ t ht
    exact absurd ht (by simp [horizontalChildren, allNodesListH])
  | cons c cs' ih =>
    intro ys i hy hrec t ht
    cases ys with
    | nil => exact absurd ht (by simp [horizontalChildren, allNodesListH])
    | cons y ys' =>
      have hy0 := hy y (List.mem_cons_self y ys')
      simp only [horizontalChildren, allNodesListH] at ht
      rcases List.mem_append.mp ht with h | h
      · by_cases hg : nextX < xL - 1/2
        · rw [if_pos hg] at h
          exact hrec c (List.mem_cons_self c cs') nextX y (d + 1) _ _
            hx1 hx2 hy0.1 hy0.2 t h
        · rw [if_neg hg] at h
          simp only [allNodesH, allNodesListH, List.mem_cons, List.not_mem_nil, or_false] at h
          subst h
          exact ⟨hx1, hx2, hy0.1, hy0.2⟩
      · exact ih ys' (i + 1) (fun y' hy' => hy y' (List.mem_cons_of_mem y hy'))
          (fun c' hc' => hrec c' (List.mem_cons_of_mem c hc')) t h

theorem horizBoundsAux (xL yL : ℚ) (node : PNode) :
    ∀ (sx sy : ℚ) (d : Nat) (aH : ℚ) (inh : String),
      10 ≤ xL → 1 ≤ yL → -3 ≤ sx → sx ≤ xL → -yL ≤ sy → sy ≤ yL →
      ∀ t ∈ allNodesH (layout_dynamic_horizontal_mindmap xL yL node sx sy d aH inh).1,
        -3 ≤ t.x ∧ t.x ≤ xL ∧ -yL ≤ t.y ∧ t.y ≤ yL := by
  obtain ⟨c, l, cs⟩ := node
  intro sx sy d aH inh hxL hyL h1 h2 h3 h4 t ht
  cases cs with
  | nil =>
    simp only [layout_dynamic_horizontal_mindmap, allNodesH, allNodesListH, List.mem_cons,
      List.not_mem_nil, or_false] at ht
    subst ht
    exact ⟨h1, h2, h3, h4⟩
  | cons c1 rest =>
    have hd0 : (0 : ℚ) ≤ (d : ℚ) := Nat.cast_nonneg d
    have hnx : -3 ≤ (if sx + ((3 : ℚ) + (d : ℚ) * (1/2)) > xL - 1 then xL - 1
          else sx + ((3 : ℚ) + (d : ℚ) * (1/2))) ∧
        (if sx + ((3 : ℚ) + (d : ℚ) * (1/2)) > xL - 1 then xL - 1
          else sx + ((3 : ℚ) + (d : ℚ) * (1/2))) ≤ xL := by
      split_ifs with h
      · constructor <;> linarith
      · push_neg at h
        constructor <;> linarith
    simp only [layout_dynamic_horizontal_mindmap, allNodesH, List.mem_cons] at ht
    rcases ht with rfl | ht
    · exact ⟨h1, h2, h3, h4⟩
    · refine horizChildrenBounds xL yL _ d (c1 :: rest).length aH _ inh
        hnx.1 hnx.2 hyL (c1 :: rest) _ 0 ?_ ?_ t ht
      · intro y hy
        split_ifs at hy with hn
        · simp only [List.mem_singleton] at hy
          subst hy
          exact ⟨h3, h4⟩
        · rcases List.mem_map.mp hy with ⟨p, _, rfl⟩
          constructor
          · have : -yL ≤ -yL + 1/2 := by linarith
            exact le_trans this (le_max_left _ _)
          · apply max_le
            · linarith
            · have : min (yL - 1/2) p ≤ yL - 1/2 := min_le_left _ _
              linarith
      · intro c' hc' sx' sy' d' aH' col' h1' h2' h3' h4'
        exact horizBoundsAux xL yL c' sx' sy' d' aH' col' hxL hyL h1' h2' h3' h4'
termination_by sizeOf node
decreasing_by
  simp only [PNode.mk.sizeOf_spec]
  have := List.sizeOf_lt_of_mem hc'
  omega

theorem centerAxisLimit_ge8 (t : PNode) : 8 ≤ centerAxisLimit t := by
  unfold centerAxisLimit
  exact Nat.le_min.mpr ⟨by norm_num, Nat.le_max_left _ _⟩

theorem horizontalXLimit_ge10 (t : PNode) : 10 ≤ horizontalXLimit t := by
  unfold horizontalXLimit
  exact Nat.le_min.mpr ⟨by norm_num, Nat.le_max_left _ _⟩

theorem horizontalYLimit_ge6 (t : PNode) : 6 ≤ horizontalYLimit t := by
  unfold horizontalYLimit
  exact Nat.le_min.mpr ⟨by norm_num, Nat.le_max_left _ _⟩

theorem self_mem_allNodesC {R : Type} (t : PTreeC R) : t ∈ allNodesC t := by
  obtain ⟨c, x, y, d, a, col, cs⟩ := t
  simp [allNodesC]

theorem self_mem_allNodesH (t : HTree) : t ∈ allNodesH t := by
  obtain ⟨c, x, y, d, col, r, cs⟩ := t
  simp [allNodesH]

/-- C7: every positioned node of the radial layout lies within
`[-axisLimit, axisLimit]²` (the root is drawn at the origin and every child
coordinate is clamped into `[-axisLimit+1, axisLimit-1]`), and every
positioned node of the horizontal layout lies within
`[-3, x_limit] × [-y_limit, y_limit]`. -/
theorem scene_containment :
    (∀ (R : Type) [LinearOrderedField R] (g : Geom R) (t : PNode),
      ∀ p ∈ allNodesC (layoutCenterTop g t),
        -((centerAxisLimit t : Nat) : R) ≤ p.x ∧ p.x ≤ ((centerAxisLimit t : Nat) : R) ∧
        -((centerAxisLimit t : Nat) : R) ≤ p.y ∧ p.y ≤ ((centerAxisLimit t : Nat) : R)) ∧
    (∀ t : PNode, ∀ p ∈ allNodesH (layoutHorizontalTop t).1,
      -3 ≤ p.x ∧ p.x ≤ ((horizontalXLimit t : Nat) : ℚ) ∧
      -((horizontalYLimit t : Nat) : ℚ) ≤ p.y ∧ p.y ≤ ((horizontalYLimit t : Nat) : ℚ)) := by
  constructor
  · intro R _ g t p hp
    have h8 : (8 : R) ≤ ((centerAxisLimit t : Nat) : R) := by
      exact_mod_cast Nat.cast_le.mpr (centerAxisLimit_ge8 t)
    exact centerBoundsAux g _ t 0 0 1 0 (2 * g.pi) rootColor (by linarith)
      (by linarith) (by linarith) (by linarith) (by linarith) p hp
  · intro t p hp
    have h10 : (10 : ℚ) ≤ ((horizontalXLimit t : Nat) : ℚ) := by
      exact_mod_cast Nat.cast_le.mpr (horizontalXLimit_ge10 t)
    have h6 : (6 : ℚ) ≤ ((horizontalYLimit t : Nat) : ℚ) := by
      exact_mod_cast Nat.cast_le.mpr (horizontalYLimit_ge6 t)
    exact horizBoundsAux _ _ t (-2) 0 1 _ rootColor h10 (by linarith)
      (by linarith) (by linarith) (by linarith) (by linarith) p hp

/-- Witness for C7: for a single-node input tree, in both engines the
root's recorded position satisfies the containment bounds. -/
theorem scene_containment_witness :
    (-(((centerAxisLimit (PNode.mk "R".toList 1 []) : Nat)) : ℚ)
        ≤ (layoutCenterTop qGeom (PNode.mk "R".toList 1 [])).x ∧
      (layoutCenterTop qGeom (PNode.mk "R".toList 1 [])).x
        ≤ ((centerAxisLimit (PNode.mk "R".toList 1 []) : Nat) : ℚ) ∧
      -(((centerAxisLimit (PNode.mk "R".toList 1 []) : Nat)) : ℚ)
        ≤ (layoutCenterTop qGeom (PNode.mk "R".toList 1 [])).y ∧
      (layoutCenterTop qGeom (PNode.mk "R".toList 1 [])).y
        ≤ ((centerAxisLimit (PNode.mk "R".toList 1 []) : Nat) : ℚ)) ∧
    (-3 ≤ (layoutHorizontalTop (PNode.mk "R".toList 1 [])).1.x ∧
      (layoutHorizontalTop (PNode.mk "R".toList 1 [])).1.x
        ≤ ((horizontalXLimit (PNode.mk "R".toList 1 []) : Nat) : ℚ) ∧
      -(((horizontalYLimit (PNode.mk "R".toList 1 []) : Nat)) : ℚ)
        ≤ (layoutHorizontalTop (PNode.mk "R".toList 1 [])).1.y ∧
      (layoutHorizontalTop (PNode.mk "R".toList 1 [])).1.y
        ≤ ((horizontalYLimit (PNode.mk "R".toList 1 []) : Nat) : ℚ)) :=
  ⟨scene_containment.1 ℚ qGeom (PNode.mk "R".toList 1 []) _ (self_mem_allNodesC _),
   scene_containment.2 (PNode.mk "R".toList 1 []) _ (self_mem_allNodesH _)⟩

/-- C8 is false as stated: in the horizontal layout of `tree8`
(`R → A → {B → {B1, B2}, C}`), node `A`'s call returns the midpoint of its
children's REPORTED values (B reports 1.5, C reports -1.5, midpoint 0),
while the midpoint of the min/max Y actually used by `A`'s descendants
(B at 1.5, B1 at 2.1, B2 at 0.9, C at -1.5) is 0.3; the claim predicate
fails on the laid-out tree. -/
theorem midpoint_claim_counterexample :
    midClaimB (layoutHorizontalTop tree8).1 = false := by
  norm_num [layoutHorizontalTop, layout_dynamic_horizontal_mindmap, horizontalChildren, tree8,
    horizontalXLimit, horizontalYLimit, calculate_tree_depth, maxDepthList, count_total_nodes,
    countNodesList, midClaimB, midClaimKidsB, allYsKids, allYs, listMinFrom, listMaxFrom,
    branchColorAt, branch_colors, rootColor, List.range_succ, HTree.retY, HTree.y,
    PNode.content, PNode.children]

end MindMap
